import Mathlib

/-!
Verification of the domain-searcher service core (Rust sources under `src/`)
against its natural-language specification.

Strings are modelled as `List Char`.  Rust's byte-wise lexicographic
comparison of UTF-8 strings coincides with codepoint-wise comparison, which
is what `strLe`/`strLt` below implement.  `str::to_lowercase` is modelled
for the ASCII range (the configs in question are ASCII).
-/

set_option autoImplicit false

namespace DomainSearcher

/-- ASCII model of `char::to_lowercase` as used by `str::to_lowercase`. -/
def lowerChar (c : Char) : Char :=
  if 'A' ≤ c ∧ c ≤ 'Z' then Char.ofNat (c.toNat + 32) else c

/-- Model of `str::to_lowercase`. -/
def lowerStr (s : List Char) : List Char := s.map lowerChar

/-- Whitespace test for `str::trim` (ASCII fragment of `char::is_whitespace`). -/
def isWs (c : Char) : Bool := c = ' ' ∨ c = '\t' ∨ c = '\n' ∨ c = '\r'

/-- Model of `str::trim`: strip whitespace from both ends. -/
def trimStr (s : List Char) : List Char :=
  ((s.dropWhile isWs).reverse.dropWhile isWs).reverse

/-- Strict lexicographic order on strings, as Rust's `<` on `str`
(byte-wise comparison; on UTF-8 this is codepoint order). -/
def strLt : List Char → List Char → Bool
  | [], [] => false
  | [], _ :: _ => true
  | _ :: _, [] => false
  | a :: s, b :: t => if a.toNat < b.toNat then true
      else if b.toNat < a.toNat then false
      else strLt s t

/-- Lexicographic `≤` on strings, as Rust's `<=` on `str`. -/
def strLe (s t : List Char) : Bool := strLt s t ∨ s = t

end DomainSearcher

namespace DomainSearcher

/-- Embedding of `GeneratorConfig` (src/src/config.rs:22-40).  The length
fields are `i32` in the source and are cast to `usize` in the generator
loop; validated configs have `1 ≤ min_length ≤ max_length`, so they are
modelled as `Nat`. -/
structure GeneratorConfig where
  tlds : List (List Char)
  min_length : Nat
  max_length : Nat
  alphabet : List Char
  allow_hyphen : Bool
  forbid_leading_hyphen : Bool
  forbid_trailing_hyphen : Bool
  forbid_double_hyphen : Bool
deriving Repr, DecidableEq

/-- Default alphabet substituted when `gen.alphabet` is empty
(src/src/service.rs:267-271). -/
def defaultAlphabet : List Char := "abcdefghijklmnopqrstuvwxyz0123456789-".data

/-- Effective alphabet of a generator config. -/
def effAlphabet (gen : GeneratorConfig) : List Char :=
  if gen.alphabet = [] then defaultAlphabet else gen.alphabet

/-- Label-building loop of `generate_candidates` (src/src/service.rs:283-306):
walks the odometer digits `idx` from position `i`, tracking `prev_hyphen`,
and returns the built label suffix, or `none` when the label is rejected.
`ln` is the total label length (used by the trailing-hyphen check). -/
def buildLabelGo (gen : GeneratorConfig) (alpha : List Char) (ln : Nat) :
    List Nat → Nat → Bool → Option (List Char)
  | [], _, _ => some []
  | j :: rest, i, prevHyphen =>
    let r := alpha.getD j ' '
    if ¬ alpha.contains r then none
    else if r = '-' then
      if ¬ gen.allow_hyphen ∨ (gen.forbid_leading_hyphen ∧ i = 0)
          ∨ (gen.forbid_trailing_hyphen ∧ i = ln - 1)
          ∨ (gen.forbid_double_hyphen ∧ prevHyphen) then none
      else (buildLabelGo gen alpha ln rest (i + 1) true).map (r :: ·)
    else (buildLabelGo gen alpha ln rest (i + 1) false).map (r :: ·)

/-- Label built from one odometer state, or `none` when rejected. -/
def buildLabel (gen : GeneratorConfig) (alpha : List Char) (idx : List Nat) :
    Option (List Char) :=
  buildLabelGo gen alpha idx.length idx 0 false

/-- TLD loop of `generate_candidates` for one valid label
(src/src/service.rs:308-329): for each config TLD, normalize it, skip it
unless it is non-empty and starts with `'.'`, and run the resume gate on
`domain = label ++ t`.  Returns the emitted domains and the final
`started` flag.  The sink always returns `true` here (the emissions are
collected); the cell update at line 325 is modelled in the pipeline
state machine. -/
def tldPass (gen : GeneratorConfig) (label : List Char) (resume : List Char) :
    List (List Char) → Bool → List (List Char) × Bool
  | [], started => ([], started)
  | tld :: rest, started =>
    let t := lowerStr (trimStr tld)
    if t = [] ∨ ¬ t.head? = some '.' then tldPass gen label resume rest started
    else
      let domain := label ++ t
      let dl := lowerStr domain
      if ¬ started then
        if strLe dl resume then
          tldPass gen label resume rest (dl = resume)
        else
          let p := tldPass gen label resume rest true
          (domain :: p.1, p.2)
      else
        let p := tldPass gen label resume rest true
        (domain :: p.1, p.2)

/-- One odometer increment on the reversed digit list (least significant
digit first), mirroring the carry loop at src/src/service.rs:331-344. -/
def incIdxRev (base : Nat) : List Nat → Option (List Nat)
  | [] => none
  | d :: rest =>
    if d + 1 < base then some ((d + 1) :: rest)
    else (incIdxRev base rest).map (fun r => 0 :: r)

/-- One odometer step on the digit list in source order (most significant
digit first); `none` means the leftmost digit carried out. -/
def odoStep (base : Nat) (idx : List Nat) : Option (List Nat) :=
  (incIdxRev base idx.reverse).map List.reverse

/-- Inner per-length loop of `generate_candidates`
(src/src/service.rs:281-350), with fuel bounding the number of odometer
states processed.  Starting from the all-zero state, `base ^ ln` fuel is
exactly enough to reach the carry-out. -/
def lenLoop (gen : GeneratorConfig) (alpha : List Char) (resume : List Char) :
    Nat → List Nat → Bool → List (List Char) × Bool
  | 0, _, started => ([], started)
  | fuel + 1, idx, started =>
    let seg :=
      match buildLabel gen alpha idx with
      | none => ([], started)
      | some label => tldPass gen label resume gen.tlds started
    match odoStep alpha.length idx with
    | none => seg
    | some idx' =>
      let rest := lenLoop gen alpha resume fuel idx' seg.2
      (seg.1 ++ rest.1, rest.2)

/-- Outer length loop of `generate_candidates` (src/src/service.rs:278). -/
def lengthLoop (gen : GeneratorConfig) (alpha : List Char) (resume : List Char) :
    List Nat → Bool → List (List Char) × Bool
  | [], started => ([], started)
  | ln :: rest, started =>
    let e := lenLoop gen alpha resume (alpha.length ^ ln) (List.replicate ln 0) started
    let e2 := lengthLoop gen alpha resume rest e.2
    (e.1 ++ e2.1, e2.2)

/-- Embedding of `generate_candidates` (src/src/service.rs:263-353) with the
always-continue sink: the list of domains passed to `emit`, in order. -/
def generate_candidates (gen : GeneratorConfig) (resume_from : List Char) :
    List (List Char) :=
  let alpha := effAlphabet gen
  let resume := lowerStr resume_from
  (lengthLoop gen alpha resume
    (List.range' gen.min_length (gen.max_length + 1 - gen.min_length))
    resume.isEmpty).1

end DomainSearcher

namespace DomainSearcher

/-- Candidates produced from one label: the config TLDs in order, filtered
and normalized as at src/src/service.rs:308-313. -/
def tldCandidatesL (label : List Char) : List (List Char) → List (List Char)
  | [] => []
  | tld :: rest =>
    let t := lowerStr (trimStr tld)
    if t = [] ∨ ¬ t.head? = some '.' then tldCandidatesL label rest
    else (label ++ t) :: tldCandidatesL label rest

/-- Candidates contributed by one odometer state. -/
def segmentOf (gen : GeneratorConfig) (alpha : List Char) (idx : List Nat) :
    List (List Char) :=
  match buildLabel gen alpha idx with
  | none => []
  | some label => tldCandidatesL label gen.tlds

/-- The odometer states visited from `idx` (inclusive), bounded by fuel. -/
def odoStates (base : Nat) : Nat → List Nat → List (List Nat)
  | 0, _ => []
  | fuel + 1, idx =>
    idx :: (match odoStep base idx with
            | none => []
            | some idx' => odoStates base fuel idx')

/-- The full deterministic candidate sequence of a config: all lengths in
ascending order, all odometer states of each length in stepping order,
all TLDs of each valid label in config order. -/
def flatCandidates (gen : GeneratorConfig) : List (List Char) :=
  let alpha := effAlphabet gen
  (List.range' gen.min_length (gen.max_length + 1 - gen.min_length)).flatMap
    fun ln =>
      (odoStates alpha.length (alpha.length ^ ln) (List.replicate ln 0)).flatMap
        (segmentOf gen alpha)

/-- The resume gate of `generate_candidates` as a single scan over the flat
candidate sequence, threading the `started` flag. -/
def emitScan (resume : List Char) : List (List Char) → Bool → List (List Char) × Bool
  | [], started => ([], started)
  | d :: ds, false =>
    if strLe (lowerStr d) resume then emitScan resume ds (lowerStr d = resume)
    else (d :: (emitScan resume ds true).1, (emitScan resume ds true).2)
  | d :: ds, true => (d :: (emitScan resume ds true).1, (emitScan resume ds true).2)

/-- Specification-side description of the resume cursor: drop candidates
while `dl ≤ resume`; at the first candidate with `dl = resume` stop
dropping just after it; at the first candidate with `dl > resume` stop
dropping just before it.  The remaining suffix is emitted unconditionally. -/
def resumeSuffix (resume : List Char) : List (List Char) → List (List Char)
  | [] => []
  | d :: ds =>
    let dl := lowerStr d
    if strLe dl resume then
      if dl = resume then ds else resumeSuffix resume ds
    else d :: ds

theorem emitScan_true (resume : List Char) (xs : List (List Char)) :
    emitScan resume xs true = (xs, true) := by
  induction xs with
  | nil => rfl
  | cons d ds ih => simp [emitScan, ih]

theorem emitScan_append (resume : List Char) (xs ys : List (List Char))
    (st : Bool) :
    emitScan resume (xs ++ ys) st =
      ((emitScan resume xs st).1 ++ (emitScan resume ys (emitScan resume xs st).2).1,
        (emitScan resume ys (emitScan resume xs st).2).2) := by
  induction xs generalizing st with
  | nil => simp [emitScan]
  | cons d ds ih =>
    cases st with
    | true => simp [emitScan_true]
    | false =>
      simp only [List.cons_append, emitScan]
      by_cases hle : strLe (lowerStr d) resume
      · simp only [hle, if_true]
        exact ih _
      · simp [hle, emitScan_true]

theorem emitScan_false (resume : List Char) (xs : List (List Char)) :
    (emitScan resume xs false).1 = resumeSuffix resume xs := by
  induction xs with
  | nil => rfl
  | cons d ds ih =>
    simp only [emitScan, resumeSuffix]
    by_cases hle : strLe (lowerStr d) resume
    · simp only [hle, if_true]
      by_cases heq : lowerStr d = resume
      · simp [heq, emitScan_true]
      · simp [heq, ih]
    · simp [hle, emitScan_true]

theorem tldPass_eq_emitScan (gen : GeneratorConfig) (label resume : List Char)
    (tlds : List (List Char)) (st : Bool) :
    tldPass gen label resume tlds st =
      emitScan resume (tldCandidatesL label tlds) st := by
  induction tlds generalizing st with
  | nil => rfl
  | cons tld rest ih =>
    by_cases hskip : lowerStr (trimStr tld) = [] ∨ ¬ (lowerStr (trimStr tld)).head? = some '.'
    · simp only [tldPass, tldCandidatesL, hskip, if_true]
      exact ih st
    · cases st with
      | true =>
        simp only [tldPass, tldCandidatesL, hskip, if_false, emitScan]
        simp [ih]
      | false =>
        simp only [tldPass, tldCandidatesL, hskip, if_false, emitScan]
        by_cases hle : strLe (lowerStr (label ++ lowerStr (trimStr tld))) resume
        · simp [hle, ih]
        · simp [hle, ih]

theorem lenLoop_eq_emitScan (gen : GeneratorConfig) (alpha resume : List Char)
    (fuel : Nat) (idx : List Nat) (st : Bool) :
    lenLoop gen alpha resume fuel idx st =
      emitScan resume ((odoStates alpha.length fuel idx).flatMap (segmentOf gen alpha)) st := by
  induction fuel generalizing idx st with
  | zero => rfl
  | succ fuel ih =>
    simp only [lenLoop, odoStates, List.flatMap_cons]
    cases hstep : odoStep alpha.length idx with
    | none =>
      simp only [hstep, segmentOf]
      cases hb : buildLabel gen alpha idx with
      | none => simp [emitScan]
      | some label => simp [tldPass_eq_emitScan, emitScan]
    | some idx' =>
      simp only [hstep, segmentOf]
      cases hb : buildLabel gen alpha idx with
      | none =>
        simp only [List.nil_append, emitScan_append]
        simp [ih, emitScan]
      | some label =>
        rw [emitScan_append]
        simp [tldPass_eq_emitScan, ih]

theorem lengthLoop_eq_emitScan (gen : GeneratorConfig) (alpha resume : List Char)
    (lns : List Nat) (st : Bool) :
    lengthLoop gen alpha resume lns st =
      emitScan resume
        (lns.flatMap fun ln =>
          (odoStates alpha.length (alpha.length ^ ln) (List.replicate ln 0)).flatMap
            (segmentOf gen alpha)) st := by
  induction lns generalizing st with
  | nil => rfl
  | cons ln rest ih =>
    simp only [lengthLoop, List.flatMap_cons]
    rw [emitScan_append, lenLoop_eq_emitScan, ih]

/-- The generator run with an empty cursor is the flat candidate sequence. -/
theorem generate_candidates_nil (gen : GeneratorConfig) :
    generate_candidates gen [] = flatCandidates gen := by
  simp only [generate_candidates, flatCandidates, lengthLoop_eq_emitScan]
  simp [lowerStr, emitScan_true]

/-- The generator run with a non-empty cursor is the `resumeSuffix` of the
flat candidate sequence. -/
theorem generate_candidates_resume (gen : GeneratorConfig)
    (resume_from : List Char) (h : resume_from ≠ []) :
    generate_candidates gen resume_from =
      resumeSuffix (lowerStr resume_from) (flatCandidates gen) := by
  have hne : (lowerStr resume_from).isEmpty = false := by
    cases resume_from with
    | nil => exact absurd rfl h
    | cons c s => simp [lowerStr]
  simp only [generate_candidates, flatCandidates, lengthLoop_eq_emitScan, hne]
  exact emitScan_false _ _

end DomainSearcher

namespace DomainSearcher

/-- Digit-list wellformedness: every digit is below the base. -/
def WfIdx (base : Nat) (ds : List Nat) : Prop := ∀ d ∈ ds, d < base

/-- Specification-side lexicographic enumeration of all `n`-digit sequences
over `0..base`, leftmost digit most significant ("odometer (lexicographic
over the alphabet) order within a length"). -/
def lexSeqs (base : Nat) : Nat → List (List Nat)
  | 0 => [[]]
  | n + 1 => (List.range base).flatMap fun d => (lexSeqs base n).map (d :: ·)

/-- Little-endian value of a digit list. -/
def valLE (base : Nat) : List Nat → Nat
  | [] => 0
  | d :: ds => d + base * valLE base ds

/-- Little-endian base representation of `v`, padded to `n` digits. -/
def padLE (base : Nat) : Nat → Nat → List Nat
  | 0, _ => []
  | n + 1, v => v % base :: padLE base n (v / base)

theorem length_padLE (base n v : Nat) : (padLE base n v).length = n := by
  induction n generalizing v with
  | zero => rfl
  | succ n ih => simp [padLE, ih]

theorem valLE_lt (base : Nat) (ds : List Nat) (h : WfIdx base ds) :
    valLE base ds < base ^ ds.length := by
  induction ds with
  | nil => simp [valLE]
  | cons d ds ih =>
    have hd : d < base := h d (List.mem_cons_self _ _)
    have hds : WfIdx base ds := fun x hx => h x (List.mem_cons_of_mem _ hx)
    have hv := ih hds
    calc d + base * valLE base ds < base * (valLE base ds + 1) := by
          rw [Nat.mul_add, Nat.mul_one]; omega
      _ ≤ base * base ^ ds.length := Nat.mul_le_mul_left base hv
      _ = base ^ (d :: ds).length := by rw [List.length_cons, pow_succ']

theorem padLE_valLE (base : Nat) (ds : List Nat) (h : WfIdx base ds) :
    padLE base ds.length (valLE base ds) = ds := by
  induction ds with
  | nil => rfl
  | cons d ds ih =>
    have hd : d < base := h d (List.mem_cons_self _ _)
    have hb : 0 < base := Nat.lt_of_le_of_lt (Nat.zero_le d) hd
    have hds : WfIdx base ds := fun x hx => h x (List.mem_cons_of_mem _ hx)
    simp only [List.length_cons, padLE, valLE]
    have h1 : (d + base * valLE base ds) % base = d := by
      rw [Nat.add_mul_mod_self_left, Nat.mod_eq_of_lt hd]
    have h2 : (d + base * valLE base ds) / base = valLE base ds := by
      rw [Nat.add_mul_div_left _ _ hb, Nat.div_eq_of_lt hd, Nat.zero_add]
    rw [h1, h2, ih hds]

theorem valLE_padLE (base n : Nat) : ∀ v : Nat, v < base ^ n →
    valLE base (padLE base n v) = v := by
  induction n with
  | zero =>
    intro v h
    rw [pow_zero] at h
    interval_cases v
    rfl
  | succ n ih =>
    intro v h
    have hb : 0 < base := by
      rcases Nat.eq_zero_or_pos base with h0 | h1
      · subst h0
        rw [zero_pow (Nat.succ_ne_zero n)] at h
        exact absurd h (Nat.not_lt_zero v)
      · exact h1
    have hv : v / base < base ^ n := by
      rw [Nat.div_lt_iff_lt_mul hb]
      calc v < base ^ (n + 1) := h
        _ = base ^ n * base := pow_succ base n
    simp only [padLE, valLE, ih _ hv, Nat.mod_add_div]

theorem wfIdx_padLE (base n v : Nat) (hb : 0 < base) : WfIdx base (padLE base n v) := by
  induction n generalizing v with
  | zero => intro d hd; simp [padLE] at hd
  | succ n ih =>
    intro d hd
    simp only [padLE, List.mem_cons] at hd
    rcases hd with h | h
    · subst h; exact Nat.mod_lt _ hb
    · exact ih _ d h

theorem incIdxRev_eq (base : Nat) (ds : List Nat) (h : WfIdx base ds) :
    incIdxRev base ds =
      if valLE base ds + 1 < base ^ ds.length
      then some (padLE base ds.length (valLE base ds + 1))
      else none := by
  induction ds with
  | nil => simp [incIdxRev, valLE]
  | cons d ds ih =>
    have hd : d < base := h d (List.mem_cons_self _ _)
    have hb : 0 < base := Nat.lt_of_le_of_lt (Nat.zero_le d) hd
    have hds : WfIdx base ds := fun x hx => h x (List.mem_cons_of_mem _ hx)
    have hv := valLE_lt base ds hds
    simp only [incIdxRev, valLE, List.length_cons]
    by_cases hcase : d + 1 < base
    · have hcond : d + base * valLE base ds + 1 < base ^ (ds.length + 1) := by
        calc d + base * valLE base ds + 1 < base + base * valLE base ds := by omega
          _ = base * (valLE base ds + 1) := by ring
          _ ≤ base * base ^ ds.length := Nat.mul_le_mul_left base hv
          _ = base ^ (ds.length + 1) := (pow_succ' base ds.length).symm
      rw [if_pos hcase, if_pos hcond]
      congr 1
      simp only [padLE]
      have e0 : d + base * valLE base ds + 1 = (d + 1) + base * valLE base ds := by ring
      have e1 : (d + base * valLE base ds + 1) % base = d + 1 := by
        rw [e0, Nat.add_mul_mod_self_left, Nat.mod_eq_of_lt hcase]
      have e2 : (d + base * valLE base ds + 1) / base = valLE base ds := by
        rw [e0, Nat.add_mul_div_left _ _ hb, Nat.div_eq_of_lt hcase, Nat.zero_add]
      rw [e1, e2, padLE_valLE base ds hds]
    · have hdb : d + 1 = base := by omega
      have etop : d + base * valLE base ds + 1 = base * (valLE base ds + 1) := by
        rw [← hdb]; ring
      rw [if_neg hcase, ih hds]
      by_cases hv2 : valLE base ds + 1 < base ^ ds.length
      · have hcond : d + base * valLE base ds + 1 < base ^ (ds.length + 1) := by
          rw [etop, pow_succ']
          exact mul_lt_mul_of_pos_left hv2 hb
        rw [if_pos hv2, if_pos hcond, etop]
        simp [padLE, Nat.mul_mod_right, Nat.mul_div_cancel_left _ hb]
      · have hcond : ¬ d + base * valLE base ds + 1 < base ^ (ds.length + 1) := by
          have : valLE base ds + 1 = base ^ ds.length := by omega
          rw [etop, this, ← pow_succ']
          omega
        rw [if_neg hv2, if_neg hcond]
        rfl

end DomainSearcher

namespace DomainSearcher

theorem odoStates_run (base : Nat) :
    ∀ fuel n (ds : List Nat), WfIdx base ds → ds.length = n →
      base ^ n - valLE base ds ≤ fuel →
      odoStates base fuel ds.reverse =
        (List.range (base ^ n - valLE base ds)).map
          (fun k => (padLE base n (valLE base ds + k)).reverse) := by
  intro fuel
  induction fuel with
  | zero =>
    intro n ds hwf hlen hfuel
    have hvlt := valLE_lt base ds hwf
    rw [hlen] at hvlt
    omega
  | succ fuel ih =>
    intro n ds hwf hlen hfuel
    have hvlt := valLE_lt base ds hwf
    rw [hlen] at hvlt
    have hstep : odoStep base ds.reverse = (incIdxRev base ds).map List.reverse := by
      simp [odoStep, List.reverse_reverse]
    simp only [odoStates, hstep, incIdxRev_eq base ds hwf, hlen]
    by_cases hc : valLE base ds + 1 < base ^ n
    · have hb : 0 < base := by
        rcases Nat.eq_zero_or_pos base with h0 | h1
        · subst h0
          rcases n with _ | n
          · simp at hc
          · rw [zero_pow (Nat.succ_ne_zero n)] at hc; omega
        · exact h1
      have hwf' : WfIdx base (padLE base n (valLE base ds + 1)) := wfIdx_padLE base n _ hb
      have hlen' : (padLE base n (valLE base ds + 1)).length = n := length_padLE base n _
      have hval' : valLE base (padLE base n (valLE base ds + 1)) = valLE base ds + 1 :=
        valLE_padLE base n _ hc
      have hrec := ih n (padLE base n (valLE base ds + 1)) hwf' hlen' (by rw [hval']; omega)
      rw [hval'] at hrec
      rw [if_pos hc]
      simp only [Option.map_some']
      rw [hrec]
      have hm : base ^ n - valLE base ds = (base ^ n - (valLE base ds + 1)) + 1 := by omega
      rw [hm, List.range_succ_eq_map, List.map_cons, List.map_map]
      congr 1
      · rw [Nat.add_zero, ← hlen, padLE_valLE base ds hwf]
      · apply List.map_congr_left
        intro k _
        simp only [Function.comp]
        congr 2
        omega
    · have hm : base ^ n - valLE base ds = 1 := by omega
      rw [if_neg hc, hm]
      have hr1 : List.range 1 = [0] := rfl
      simp only [Option.map_none', hr1, List.map_cons, List.map_nil]
      rw [Nat.add_zero, ← hlen, padLE_valLE base ds hwf]

theorem valLE_replicate_zero (base n : Nat) : valLE base (List.replicate n 0) = 0 := by
  induction n with
  | zero => rfl
  | succ n ih => simp [List.replicate_succ, valLE, ih]

theorem range_mul_flatMap (a b : Nat) :
    List.range (a * b) =
      (List.range a).flatMap fun d => (List.range b).map fun r => d * b + r := by
  induction a with
  | zero => simp
  | succ a ih =>
    rw [Nat.succ_mul, List.range_add, ih, List.range_succ, List.flatMap_append]
    simp [Nat.add_comm]

theorem padLE_concat (base : Nat) :
    ∀ n v : Nat, 0 < base → v < base ^ (n + 1) →
      padLE base (n + 1) v = padLE base n (v % base ^ n) ++ [v / base ^ n] := by
  intro n
  induction n with
  | zero =>
    intro v hb h
    rw [pow_one] at h
    simp [padLE, Nat.mod_one, Nat.mod_eq_of_lt h]
  | succ n ih =>
    intro v hb h
    have hv : v / base < base ^ (n + 1) := by
      rw [Nat.div_lt_iff_lt_mul hb]
      calc v < base ^ (n + 2) := h
        _ = base ^ (n + 1) * base := pow_succ base (n + 1)
    have e1 : v % base ^ (n + 1) % base = v % base :=
      Nat.mod_mod_of_dvd v (dvd_pow_self base (Nat.succ_ne_zero n))
    have e2 : v % base ^ (n + 1) / base = v / base % base ^ n := by
      rw [pow_succ' base n]
      exact Nat.mod_mul_right_div_self v base (base ^ n)
    have e3 : v / base / base ^ n = v / base ^ (n + 1) := by
      rw [Nat.div_div_eq_div_mul, ← pow_succ' base n]
    calc padLE base (n + 2) v
        = v % base :: padLE base (n + 1) (v / base) := rfl
      _ = v % base :: (padLE base n (v / base % base ^ n) ++ [v / base / base ^ n]) := by
          rw [ih _ hb hv]
      _ = (v % base :: padLE base n (v / base % base ^ n)) ++ [v / base ^ (n + 1)] := by
          rw [e3]; simp
      _ = padLE base (n + 1) (v % base ^ (n + 1)) ++ [v / base ^ (n + 1)] := by
          simp only [padLE]
          rw [e1, e2]

theorem lexSeqs_eq_range (base : Nat) (n : Nat) :
    lexSeqs base n = (List.range (base ^ n)).map fun v => (padLE base n v).reverse := by
  induction n with
  | zero => simp [lexSeqs, padLE]
  | succ n ih =>
    rcases Nat.eq_zero_or_pos base with hb0 | hb
    · subst hb0
      simp [lexSeqs, zero_pow (Nat.succ_ne_zero n)]
    · rw [lexSeqs, ih, pow_succ' base n, range_mul_flatMap, List.map_flatMap]
      apply List.flatMap_congr
      intro d hd
      rw [List.mem_range] at hd
      rw [List.map_map, List.map_map]
      apply List.map_congr_left
      intro r hr
      rw [List.mem_range] at hr
      have hbn : 0 < base ^ n := pow_pos hb n
      have hvlt : d * base ^ n + r < base ^ (n + 1) := by
        rw [pow_succ' base n]
        calc d * base ^ n + r < d * base ^ n + base ^ n := by omega
          _ = (d + 1) * base ^ n := by ring
          _ ≤ base * base ^ n := Nat.mul_le_mul_right _ hd
      have hcat := padLE_concat base n (d * base ^ n + r) hb hvlt
      have emod : (d * base ^ n + r) % base ^ n = r := by
        rw [Nat.mul_comm d (base ^ n), Nat.mul_add_mod, Nat.mod_eq_of_lt hr]
      have ediv : (d * base ^ n + r) / base ^ n = d := by
        rw [Nat.mul_comm d (base ^ n), Nat.mul_add_div hbn, Nat.div_eq_of_lt hr,
          Nat.add_zero]
      simp only [Function.comp]
      rw [hcat, emod, ediv, List.reverse_append, List.reverse_singleton,
        List.singleton_append]

/-- Starting at all zeros with `base ^ ln` fuel, the odometer visits exactly
the lexicographic sequence enumeration of length `ln`. -/
theorem odoStates_zero_eq_lexSeqs (base ln : Nat) (hb : 0 < base) :
    odoStates base (base ^ ln) (List.replicate ln 0) = lexSeqs base ln := by
  have hwf : WfIdx base (List.replicate ln 0) := by
    intro d hd
    rw [List.eq_of_mem_replicate hd]
    exact hb
  have hrun := odoStates_run base (base ^ ln) ln (List.replicate ln 0) hwf
    (List.length_replicate ln 0)
    (by rw [valLE_replicate_zero]; omega)
  rw [List.reverse_replicate, valLE_replicate_zero, Nat.sub_zero] at hrun
  rw [hrun, lexSeqs_eq_range]
  apply List.map_congr_left
  intro k _
  rw [Nat.zero_add]

end DomainSearcher

namespace DomainSearcher

/-- Specification-side enumeration order: lengths ascending from
`min_length` to `max_length`, lexicographic (odometer) sequence order
within a length, config-TLD order within a label. -/
def specEnumeration (gen : GeneratorConfig) : List (List Char) :=
  (List.range' gen.min_length (gen.max_length + 1 - gen.min_length)).flatMap
    fun ln =>
      (lexSeqs (effAlphabet gen).length ln).flatMap (segmentOf gen (effAlphabet gen))

theorem effAlphabet_ne_nil (gen : GeneratorConfig) : effAlphabet gen ≠ [] := by
  by_cases h : gen.alphabet = []
  · rw [effAlphabet, if_pos h]
    decide
  · rw [effAlphabet, if_neg h]
    exact h

theorem flatCandidates_eq_specEnumeration (gen : GeneratorConfig) :
    flatCandidates gen = specEnumeration gen := by
  unfold flatCandidates specEnumeration
  apply List.flatMap_congr
  intro ln _
  rw [odoStates_zero_eq_lexSeqs]
  exact List.length_pos.mpr (effAlphabet_ne_nil gen)

/-- C7: the generator's emission order is total and deterministic — lengths
ascending from `min_length` to `max_length`, odometer (lexicographic over
the alphabet) order within a length, config-TLD order within a label — and
with alphabet "ab", `min=max=2`, `tlds=[".io"]`, `allow_hyphen=false` it
emits exactly `["aa.io","ab.io","ba.io","bb.io"]` in that order. -/
theorem generator_order_deterministic :
    (∀ gen : GeneratorConfig, generate_candidates gen [] = specEnumeration gen) ∧
      generate_candidates
          ⟨[".io".data], 2, 2, "ab".data, false, false, false, false⟩ [] =
        ["aa.io".data, "ab.io".data, "ba.io".data, "bb.io".data] := by
  constructor
  · intro gen
    rw [generate_candidates_nil, flatCandidates_eq_specEnumeration]
  · decide

/-- C1 counterexample: with alphabet "ab", lengths 1 to 2, `tlds=[".io"]`
and `resume_from="b.io"`, the resumed run re-emits `"aa.io"` and `"ab.io"`
even though they sort `≤ "b.io"`, so it differs from the fresh run
filtered by `dl > "b.io"`. -/
theorem resume_skips_not_filter :
    generate_candidates
        ⟨[".io".data], 1, 2, "ab".data, false, false, false, false⟩ "b.io".data =
      ["aa.io".data, "ab.io".data, "ba.io".data, "bb.io".data] ∧
    (generate_candidates
        ⟨[".io".data], 1, 2, "ab".data, false, false, false, false⟩ []).filter
        (fun d => ! strLe (lowerStr d) "b.io".data) =
      ["ba.io".data, "bb.io".data] ∧
    generate_candidates
        ⟨[".io".data], 1, 2, "ab".data, false, false, false, false⟩ "b.io".data ≠
      (generate_candidates
        ⟨[".io".data], 1, 2, "ab".data, false, false, false, false⟩ []).filter
        (fun d => ! strLe (lowerStr d) "b.io".data) := by
  refine ⟨by decide, by decide, by decide⟩

/-- C1 (amended): with a non-empty `resume_from`, the run emits exactly the
`resumeSuffix` of the fresh enumeration: candidates are skipped while
`dl ≤ resume`, the skipping ends right after the first candidate with
`dl = resume` or right before the first candidate with `dl > resume`, and
the entire remaining suffix is emitted; with the S1 config and
`resume_from="ab.io"` exactly `["ba.io","bb.io"]` is emitted. -/
theorem resume_emits_suffix :
    (∀ (gen : GeneratorConfig) (resume_from : List Char), resume_from ≠ [] →
        generate_candidates gen resume_from =
          resumeSuffix (lowerStr resume_from) (generate_candidates gen [])) ∧
      generate_candidates
          ⟨[".io".data], 2, 2, "ab".data, false, false, false, false⟩ "ab.io".data =
        ["ba.io".data, "bb.io".data] := by
  constructor
  · intro gen r h
    rw [generate_candidates_resume gen r h, generate_candidates_nil]
  · decide

/-- Witness for `resume_emits_suffix`: instantiated at the S1 config with
cursor "ab.io". -/
theorem resume_emits_suffix_witness :
    generate_candidates
        ⟨[".io".data], 2, 2, "ab".data, false, false, false, false⟩ "ab.io".data =
      resumeSuffix (lowerStr "ab.io".data)
        (generate_candidates
          ⟨[".io".data], 2, 2, "ab".data, false, false, false, false⟩ []) :=
  resume_emits_suffix.1 _ "ab.io".data (by decide)

end DomainSearcher

namespace DomainSearcher

/-- No two consecutive hyphens occur in the list. -/
def noDoubleHyphen : List Char → Bool
  | [] => true
  | [_] => true
  | a :: b :: rest => (decide ¬ (a = '-' ∧ b = '-')) && noDoubleHyphen (b :: rest)

theorem noDoubleHyphen_cons (a : Char) (l : List Char)
    (h1 : a = '-' → l.head? ≠ some '-') (h2 : noDoubleHyphen l = true) :
    noDoubleHyphen (a :: l) = true := by
  cases l with
  | nil => rfl
  | cons b r =>
    simp only [noDoubleHyphen, Bool.and_eq_true, decide_eq_true_eq]
    refine ⟨fun hab => h1 hab.1 ?_, h2⟩
    rw [hab.2]
    rfl

theorem buildLabelGo_sound (gen : GeneratorConfig) (alpha : List Char) (ln : Nat) :
    ∀ (rest : List Nat) (i : Nat) (prev : Bool) (cs : List Char),
      buildLabelGo gen alpha ln rest i prev = some cs →
      cs.length = rest.length ∧
      (∀ c ∈ cs, alpha.contains c = true) ∧
      (gen.allow_hyphen = false → '-' ∉ cs) ∧
      (gen.forbid_leading_hyphen = true → i = 0 → cs.head? ≠ some '-') ∧
      (gen.forbid_trailing_hyphen = true → i + cs.length = ln → cs.getLast? ≠ some '-') ∧
      (gen.forbid_double_hyphen = true → prev = true → cs.head? ≠ some '-') ∧
      (gen.forbid_double_hyphen = true → noDoubleHyphen cs = true) := by
  intro rest
  induction rest with
  | nil =>
    intro i prev cs h
    simp only [buildLabelGo, Option.some.injEq] at h
    subst h
    refine ⟨rfl, by simp, by simp, by simp, ?_, by simp, by simp [noDoubleHyphen]⟩
    intro _ _
    simp
  | cons j rest ih =>
    intro i prev cs h
    simp only [buildLabelGo] at h
    by_cases hcont : alpha.contains (alpha.getD j ' ') = true
    · rw [if_neg (not_not_intro hcont)] at h
      by_cases hdash : alpha.getD j ' ' = '-'
      · rw [if_pos hdash] at h
        by_cases hguard : ¬ gen.allow_hyphen = true ∨ (gen.forbid_leading_hyphen = true ∧ i = 0)
            ∨ (gen.forbid_trailing_hyphen = true ∧ i = ln - 1)
            ∨ (gen.forbid_double_hyphen = true ∧ prev = true)
        · rw [if_pos hguard] at h
          exact absurd h (by simp)
        · rw [if_neg hguard] at h
          push_neg at hguard
          obtain ⟨hallow, hlead, htrail, hdbl⟩ := hguard
          obtain ⟨cs', hrec, hcs⟩ := Option.map_eq_some'.mp h
          subst hcs
          obtain ⟨ihlen, ihmem, ihallow, ihlead, ihtrail, ihdblhead, ihdbl⟩ :=
            ih (i + 1) true cs' hrec
          rw [hdash] at hcont ⊢
          refine ⟨by simp [ihlen], ?_, ?_, ?_, ?_, ?_, ?_⟩
          · intro c hc
            rcases List.mem_cons.mp hc with hc | hc
            · rw [hc]; exact hcont
            · exact ihmem c hc
          · intro hna
            rw [hna] at hallow
            simp at hallow
          · intro hfl hi
            exact absurd hi (hlead hfl)
          · intro hft hlen2
            cases cs' with
            | nil =>
              have : i = ln - 1 := by
                simp at hlen2
                omega
              exact absurd this (htrail hft)
            | cons b r =>
              rw [List.getLast?_cons_cons]
              apply ihtrail hft
              simp at hlen2 ⊢
              omega
          · intro hfd hprev
            exact absurd hprev (hdbl hfd)
          · intro hfd
            exact noDoubleHyphen_cons '-' cs' (fun _ => ihdblhead hfd rfl) (ihdbl hfd)
      · rw [if_neg hdash] at h
        obtain ⟨cs', hrec, hcs⟩ := Option.map_eq_some'.mp h
        subst hcs
        obtain ⟨ihlen, ihmem, ihallow, ihlead, ihtrail, ihdblhead, ihdbl⟩ :=
          ih (i + 1) false cs' hrec
        refine ⟨by simp [ihlen], ?_, ?_, ?_, ?_, ?_, ?_⟩
        · intro c hc
          rcases List.mem_cons.mp hc with hc | hc
          · rw [hc]; exact hcont
          · exact ihmem c hc
        · intro hna
          intro hmem
          rcases List.mem_cons.mp hmem with hc | hc
          · exact hdash hc.symm
          · exact ihallow hna hc
        · intro _ _
          simp only [List.head?_cons, ne_eq, Option.some.injEq]
          exact fun hc => hdash hc
        · intro hft hlen2
          cases cs' with
          | nil =>
            simp only [List.getLast?_singleton, ne_eq, Option.some.injEq]
            exact fun hc => hdash hc
          | cons b r =>
            rw [List.getLast?_cons_cons]
            apply ihtrail hft
            simp at hlen2 ⊢
            omega
        · intro _ _
          simp only [List.head?_cons, ne_eq, Option.some.injEq]
          exact fun hc => hdash hc
        · intro hfd
          exact noDoubleHyphen_cons _ cs' (fun hc => absurd hc hdash) (ihdbl hfd)
    · rw [if_pos (by simpa using hcont)] at h
      exact absurd h (by simp)

end DomainSearcher

namespace DomainSearcher

theorem mem_of_mem_resumeSuffix (resume : List Char) (l : List (List Char))
    (x : List Char) (h : x ∈ resumeSuffix resume l) : x ∈ l := by
  induction l with
  | nil => simp [resumeSuffix] at h
  | cons d ds ih =>
    simp only [resumeSuffix] at h
    by_cases hle : strLe (lowerStr d) resume
    · rw [if_pos hle] at h
      by_cases heq : lowerStr d = resume
      · rw [if_pos heq] at h
        exact List.mem_cons_of_mem _ h
      · rw [if_neg heq] at h
        exact List.mem_cons_of_mem _ (ih h)
    · rw [if_neg hle] at h
      exact h

theorem mem_tldCandidatesL (label x : List Char) (tlds : List (List Char))
    (h : x ∈ tldCandidatesL label tlds) :
    ∃ tld ∈ tlds, x = label ++ lowerStr (trimStr tld) := by
  induction tlds with
  | nil => simp [tldCandidatesL] at h
  | cons tld rest ih =>
    simp only [tldCandidatesL] at h
    by_cases hskip : lowerStr (trimStr tld) = [] ∨ ¬ (lowerStr (trimStr tld)).head? = some '.'
    · rw [if_pos hskip] at h
      obtain ⟨t, ht, hx⟩ := ih h
      exact ⟨t, List.mem_cons_of_mem _ ht, hx⟩
    · rw [if_neg hskip] at h
      rcases List.mem_cons.mp h with hx | hx
      · exact ⟨tld, List.mem_cons_self _ _, hx⟩
      · obtain ⟨t, ht, hx⟩ := ih hx
        exact ⟨t, List.mem_cons_of_mem _ ht, hx⟩

theorem mem_generate_candidates (gen : GeneratorConfig) (r d : List Char)
    (h : d ∈ generate_candidates gen r) :
    ∃ idx label tld, buildLabel gen (effAlphabet gen) idx = some label ∧
      tld ∈ gen.tlds ∧ d = label ++ lowerStr (trimStr tld) := by
  have hflat : d ∈ flatCandidates gen := by
    by_cases hr : r = []
    · subst hr
      rwa [generate_candidates_nil] at h
    · rw [generate_candidates_resume gen r hr] at h
      exact mem_of_mem_resumeSuffix _ _ _ h
  unfold flatCandidates at hflat
  obtain ⟨ln, _, hln⟩ := List.mem_flatMap.mp hflat
  obtain ⟨idx, _, hidx⟩ := List.mem_flatMap.mp hln
  unfold segmentOf at hidx
  cases hb : buildLabel gen (effAlphabet gen) idx with
  | none => rw [hb] at hidx; simp at hidx
  | some label =>
    rw [hb] at hidx
    obtain ⟨tld, ht, hd⟩ := mem_tldCandidatesL label d gen.tlds hidx
    exact ⟨idx, label, tld, hb, ht, hd⟩

/-- C8: every emitted domain is a label (over the effective alphabet,
defaulting when the config alphabet is empty) followed by a normalized
config TLD, where the label contains only alphabet characters and obeys the
hyphen policy: no hyphen at all when `allow_hyphen` is false, no leading
hyphen under `forbid_leading_hyphen`, no trailing hyphen under
`forbid_trailing_hyphen`, and no two consecutive hyphens under
`forbid_double_hyphen`. -/
theorem alphabet_closure (gen : GeneratorConfig) (r d : List Char)
    (h : d ∈ generate_candidates gen r) :
    ∃ label tld, tld ∈ gen.tlds ∧ d = label ++ lowerStr (trimStr tld) ∧
      (∀ c ∈ label, c ∈ effAlphabet gen) ∧
      (gen.allow_hyphen = false → '-' ∉ label) ∧
      (gen.forbid_leading_hyphen = true → label.head? ≠ some '-') ∧
      (gen.forbid_trailing_hyphen = true → label.getLast? ≠ some '-') ∧
      (gen.forbid_double_hyphen = true → noDoubleHyphen label = true) := by
  obtain ⟨idx, label, tld, hb, ht, hd⟩ := mem_generate_candidates gen r d h
  obtain ⟨hlen, hmem, hallow, hlead, htrail, _, hdbl⟩ :=
    buildLabelGo_sound gen (effAlphabet gen) idx.length idx 0 false label hb
  refine ⟨label, tld, ht, hd, ?_, hallow, ?_, ?_, hdbl⟩
  · intro c hc
    simpa using hmem c hc
  · intro hfl
    exact hlead hfl rfl
  · intro hft
    exact htrail hft (by rw [Nat.zero_add, hlen])

/-- Witness for `alphabet_closure`: the S2 hyphen-rules config emits
"a-a.x", and the theorem applies to it. -/
theorem alphabet_closure_witness :
    "a-a.x".data ∈ generate_candidates
        ⟨[".x".data], 3, 3, "a-".data, true, true, true, true⟩ [] ∧
    ∃ label tld,
      tld ∈ ([".x".data] : List (List Char)) ∧
      "a-a.x".data = label ++ lowerStr (trimStr tld) ∧
      (∀ c ∈ label, c ∈ effAlphabet
          ⟨[".x".data], 3, 3, "a-".data, true, true, true, true⟩) ∧
      (true = false → '-' ∉ label) ∧
      (true = true → label.head? ≠ some '-') ∧
      (true = true → label.getLast? ≠ some '-') ∧
      (true = true → noDoubleHyphen label = true) :=
  ⟨by decide,
    alphabet_closure ⟨[".x".data], 3, 3, "a-".data, true, true, true, true⟩ []
      "a-a.x".data (by decide)⟩

end DomainSearcher

namespace DomainSearcher

/-- Embedding of `HTTPCheckConfig` (src/src/config.rs:49-61).  The `timeout`
and `method` fields do not influence the control flow modelled here
(`method` only selects the HTTP verb of each request).
The `body_limit_bytes` field is used by src/src/service.rs:237 as
`hc.body_limit.bytes`; its declaration is not part of the sources under
`src/`.  Modelled from the spec: `body_limit_bytes: u64 >= 1  # streaming
read cap`. -/
structure HTTPCheckConfig where
  retry : Nat
  accept_status_min : Int
  accept_status_max : Int
  try_https_first : Bool
  body_limit_bytes : Nat
deriving Repr, DecidableEq

/-- One observed HTTP response: a status code and the body chunk sizes as
delivered by the byte stream (`none` is a mid-stream chunk error). -/
structure HttpResponse where
  status : Nat
  chunks : List (Option Nat)
deriving Repr, DecidableEq

/-- Network environment: what `client.execute` returns for the request of
attempt `a` over the given scheme (`none` is a transport error). -/
def HttpEnv : Type := Nat → String → Option HttpResponse

/-- Scheme order of `check_domain` (src/src/service.rs:220-224). -/
def schemesOf (hc : HTTPCheckConfig) : List String :=
  if hc.try_https_first then ["https", "http"] else ["http", "https"]

/-- Body-reading loop of `check_domain` (src/src/service.rs:234-247):
consume whole chunks, stopping at a chunk error, at end of stream, or once
the cumulative count has reached the limit; returns the bytes consumed. -/
def readBody (limit : Nat) : Nat → List (Option Nat) → Nat
  | read, [] => read
  | read, none :: _ => read
  | read, some n :: rest =>
    if limit ≤ read + n then read + n else readBody limit (read + n) rest

/-- One record per issued HTTP request: attempt index, scheme, and the
number of body bytes consumed (0 for transport errors). -/
structure ReqRecord where
  attempt : Nat
  scheme : String
  consumed : Nat
deriving Repr, DecidableEq

/-- Scheme loop of one attempt of `check_domain`
(src/src/service.rs:227-257): issue one request per scheme; on a response,
read the body (bounded) and accept iff the status is within
`[accept_status_min, accept_status_max]`. -/
def schemeLoop (env : HttpEnv) (hc : HTTPCheckConfig) (a : Nat) :
    List String → Bool × List ReqRecord
  | [] => (false, [])
  | sch :: rest =>
    match env a sch with
    | some resp =>
      let consumed := readBody (max hc.body_limit_bytes 1) 0 resp.chunks
      if hc.accept_status_min ≤ (resp.status : Int) ∧
          (resp.status : Int) ≤ hc.accept_status_max then
        (true, [⟨a, sch, consumed⟩])
      else
        let p := schemeLoop env hc a rest
        (p.1, ⟨a, sch, consumed⟩ :: p.2)
    | none =>
      let p := schemeLoop env hc a rest
      (p.1, ⟨a, sch, 0⟩ :: p.2)

/-- Attempt loop of `check_domain` (src/src/service.rs:226). -/
def attemptLoop (env : HttpEnv) (hc : HTTPCheckConfig) :
    List Nat → Bool × List ReqRecord
  | [] => (false, [])
  | a :: rest =>
    let p := schemeLoop env hc a (schemesOf hc)
    if p.1 then p
    else
      let q := attemptLoop env hc rest
      (q.1, p.2 ++ q.2)

/-- Embedding of `check_domain` (src/src/service.rs:214-260) for one domain
under network environment `env`: the returned reachability flag together
with the trace of HTTP requests actually issued, in order.  The only
fallible step of the source (`client.request(..).build()?`) is modelled as
succeeding, so the `anyhow::Result` wrapper is dropped. -/
def check_domain (env : HttpEnv) (hc : HTTPCheckConfig) : Bool × List ReqRecord :=
  attemptLoop env hc (List.range (hc.retry + 1))

end DomainSearcher

namespace DomainSearcher

theorem schemeLoop_all_err (env : HttpEnv) (hc : HTTPCheckConfig) (a : Nat)
    (henv : ∀ a s, env a s = none) (schs : List String) :
    schemeLoop env hc a schs = (false, schs.map fun s => ⟨a, s, 0⟩) := by
  induction schs with
  | nil => rfl
  | cons sch rest ih => simp [schemeLoop, henv, ih]

theorem attemptLoop_all_err (env : HttpEnv) (hc : HTTPCheckConfig)
    (henv : ∀ a s, env a s = none) (as : List Nat) :
    attemptLoop env hc as =
      (false, as.flatMap fun a => (schemesOf hc).map fun s => ⟨a, s, 0⟩) := by
  induction as with
  | nil => rfl
  | cons a rest ih =>
    simp [attemptLoop, schemeLoop_all_err env hc a henv, ih]

theorem schemeLoop_ne_nil (env : HttpEnv) (hc : HTTPCheckConfig) (a : Nat)
    (sch : String) (rest : List String) :
    (schemeLoop env hc a (sch :: rest)).2 ≠ [] := by
  simp only [schemeLoop]
  cases env a sch with
  | none => simp
  | some resp =>
    by_cases hacc : hc.accept_status_min ≤ (resp.status : Int) ∧
        (resp.status : Int) ≤ hc.accept_status_max
    · simp [hacc]
    · simp [hacc]

theorem schemesOf_length (hc : HTTPCheckConfig) : (schemesOf hc).length = 2 := by
  unfold schemesOf
  split <;> rfl

/-- C2 counterexample: for a domain that does not resolve, every request
fails at transport level; the embedded `check_domain` nevertheless issues
two HTTP requests (attempt 0 over both schemes) instead of returning
`false` with no HTTP request after a DNS prefilter — there is no DNS
prefilter in src/src/service.rs:214-260. -/
theorem check_domain_probes_without_dns :
    (check_domain (fun _ _ => none) ⟨0, 200, 299, true, 1⟩).2 =
      [⟨0, "https", 0⟩, ⟨0, "http", 0⟩] ∧
    (check_domain (fun _ _ => none) ⟨0, 200, 299, true, 1⟩).2 ≠ [] :=
  ⟨by decide, by decide⟩

/-- C2 (amended): `check_domain` performs no DNS prefilter: every invocation
issues at least one HTTP request, and for a domain whose every network
interaction fails (e.g. it does not resolve) it returns `false` after
issuing `2 * (retry + 1)` requests; the failure never surfaces as an
error. -/
theorem check_domain_no_dns_prefilter (env : HttpEnv) (hc : HTTPCheckConfig) :
    (check_domain env hc).2 ≠ [] ∧
      ((∀ a s, env a s = none) →
        (check_domain env hc).1 = false ∧
        (check_domain env hc).2.length = 2 * (hc.retry + 1)) := by
  constructor
  · have hsl : ∀ a, (schemeLoop env hc a (schemesOf hc)).2 ≠ [] := by
      intro a
      unfold schemesOf
      split <;> exact schemeLoop_ne_nil env hc a _ _
    unfold check_domain
    rw [List.range_succ_eq_map]
    simp only [attemptLoop]
    split
    · exact hsl 0
    · simp only [ne_eq, List.append_eq_nil, not_and]
      intro hp
      exact absurd hp (hsl 0)
  · intro henv
    unfold check_domain
    rw [attemptLoop_all_err env hc henv]
    refine ⟨rfl, ?_⟩
    have hlen : ∀ as : List Nat,
        (as.flatMap fun a => (schemesOf hc).map fun s =>
          (⟨a, s, 0⟩ : ReqRecord)).length = 2 * as.length := by
      intro as
      induction as with
      | nil => rfl
      | cons a rest ih =>
        simp only [List.flatMap_cons, List.length_append, List.length_map, ih,
          schemesOf_length, List.length_cons]
        ring
    simp only [hlen, List.length_range]

/-- Witness for `check_domain_no_dns_prefilter`: the all-errors environment
with retry 0. -/
theorem check_domain_no_dns_prefilter_witness :
    (check_domain (fun _ _ => none) ⟨0, 200, 299, true, 1⟩).1 = false ∧
    (check_domain (fun _ _ => none) ⟨0, 200, 299, true, 1⟩).2.length = 2 * (0 + 1) :=
  (check_domain_no_dns_prefilter (fun _ _ => none) ⟨0, 200, 299, true, 1⟩).2
    (fun _ _ => rfl)

end DomainSearcher

namespace DomainSearcher

/-- Acceptance predicate of one observed request outcome
(src/src/service.rs:248): a response arrived and its status lies in the
inclusive accept range. -/
def acceptsResp (hc : HTTPCheckConfig) : Option HttpResponse → Prop
  | some resp =>
    hc.accept_status_min ≤ (resp.status : Int) ∧
      (resp.status : Int) ≤ hc.accept_status_max
  | none => False

instance (hc : HTTPCheckConfig) (o : Option HttpResponse) :
    Decidable (acceptsResp hc o) := by
  cases o with
  | none => exact isFalse (fun h => h)
  | some resp => exact instDecidableAnd

/-- Specification-side request plan: all attempt/scheme pairs in probing
order. -/
def orderedRequests (hc : HTTPCheckConfig) : List (Nat × String) :=
  (List.range (hc.retry + 1)).flatMap fun a => (schemesOf hc).map fun s => (a, s)

/-- Specification-side scan over a request plan: requests are issued in
order and the scan stops at the first accepted one. -/
def probeScan (acc : Nat × String → Bool) : List (Nat × String) → Bool × List (Nat × String)
  | [] => (false, [])
  | r :: rest =>
    if acc r then (true, [r])
    else ((probeScan acc rest).1, r :: (probeScan acc rest).2)

theorem probeScan_append (acc : Nat × String → Bool) (xs ys : List (Nat × String)) :
    probeScan acc (xs ++ ys) =
      if (probeScan acc xs).1 then probeScan acc xs
      else ((probeScan acc ys).1, (probeScan acc xs).2 ++ (probeScan acc ys).2) := by
  induction xs with
  | nil => simp [probeScan]
  | cons r xs ih =>
    by_cases hr : acc r = true
    · simp [probeScan, hr]
    · rw [List.cons_append]
      simp only [probeScan, hr, if_false]
      rw [ih]
      by_cases hx : (probeScan acc xs).1 = true
      · simp [hx]
      · simp [hx]

theorem probeScan_true_iff (acc : Nat × String → Bool) (l : List (Nat × String)) :
    (probeScan acc l).1 = true ↔ ∃ r ∈ l, acc r = true := by
  induction l with
  | nil => simp [probeScan]
  | cons r rest ih =>
    by_cases hr : acc r = true
    · simp [probeScan, hr]
    · simp [probeScan, hr, ih]

/-- Projection of an issued-request record to its plan position. -/
def reqPos (rec : ReqRecord) : Nat × String := (rec.attempt, rec.scheme)

theorem schemeLoop_eq_probeScan (env : HttpEnv) (hc : HTTPCheckConfig) (a : Nat)
    (schs : List String) :
    (schemeLoop env hc a schs).1 =
        (probeScan (fun r => decide (acceptsResp hc (env r.1 r.2)))
          (schs.map fun s => (a, s))).1 ∧
      (schemeLoop env hc a schs).2.map reqPos =
        (probeScan (fun r => decide (acceptsResp hc (env r.1 r.2)))
          (schs.map fun s => (a, s))).2 := by
  induction schs with
  | nil => exact ⟨rfl, rfl⟩
  | cons sch rest ih =>
    cases henv : env a sch with
    | none =>
      have hd : decide (acceptsResp hc (env a sch)) = false := by
        rw [henv]
        rfl
      refine ⟨?_, ?_⟩
      · simp only [schemeLoop, henv]
        rw [ih.1]
        simp [probeScan, hd]
      · simp only [schemeLoop, henv, List.map_cons]
        simp [probeScan, hd, reqPos, ih.2]
    | some resp =>
      by_cases hacc : hc.accept_status_min ≤ (resp.status : Int) ∧
          (resp.status : Int) ≤ hc.accept_status_max
      · have hd : decide (acceptsResp hc (env a sch)) = true := by
          rw [henv]
          exact decide_eq_true hacc
        refine ⟨?_, ?_⟩
        · simp only [schemeLoop, henv, if_pos hacc]
          simp [probeScan, hd]
        · simp only [schemeLoop, henv, if_pos hacc, List.map_cons]
          simp [probeScan, hd, reqPos]
      · have hd : decide (acceptsResp hc (env a sch)) = false := by
          rw [henv]
          exact decide_eq_false hacc
        refine ⟨?_, ?_⟩
        · simp only [schemeLoop, henv, if_neg hacc]
          rw [ih.1]
          simp [probeScan, hd]
        · simp only [schemeLoop, henv, if_neg hacc, List.map_cons]
          simp [probeScan, hd, reqPos, ih.2]

theorem attemptLoop_eq_probeScan (env : HttpEnv) (hc : HTTPCheckConfig)
    (as : List Nat) :
    (attemptLoop env hc as).1 =
        (probeScan (fun r => decide (acceptsResp hc (env r.1 r.2)))
          (as.flatMap fun a => (schemesOf hc).map fun s => (a, s))).1 ∧
      (attemptLoop env hc as).2.map reqPos =
        (probeScan (fun r => decide (acceptsResp hc (env r.1 r.2)))
          (as.flatMap fun a => (schemesOf hc).map fun s => (a, s))).2 := by
  induction as with
  | nil => exact ⟨rfl, rfl⟩
  | cons a rest ih =>
    simp only [attemptLoop, List.flatMap_cons, probeScan_append]
    have hs := schemeLoop_eq_probeScan env hc a (schemesOf hc)
    by_cases hp : (schemeLoop env hc a (schemesOf hc)).1 = true
    · have hps : (probeScan (fun r => decide (acceptsResp hc (env r.1 r.2)))
          ((schemesOf hc).map fun s => (a, s))).1 = true := by
        rw [← hs.1]
        exact hp
      rw [if_pos hp, if_pos hps]
      exact hs
    · have hps : ¬ (probeScan (fun r => decide (acceptsResp hc (env r.1 r.2)))
          ((schemesOf hc).map fun s => (a, s))).1 = true := by
        rw [← hs.1]
        exact hp
      rw [if_neg hp, if_neg hps]
      refine ⟨ih.1, ?_⟩
      simp only [List.map_append, hs.2, ih.2]

end DomainSearcher

namespace DomainSearcher

/-- Largest chunk size appearing in a body stream (errors count 0). -/
def chunkMax : List (Option Nat) → Nat
  | [] => 0
  | c :: rest => max (c.getD 0) (chunkMax rest)

theorem readBody_le (limit : Nat) : ∀ (chunks : List (Option Nat)) (read : Nat),
    read < limit → readBody limit read chunks ≤ limit - 1 + chunkMax chunks := by
  intro chunks
  induction chunks with
  | nil =>
    intro read h
    simp only [readBody, chunkMax]
    omega
  | cons c rest ih =>
    intro read h
    cases c with
    | none =>
      simp only [readBody, chunkMax]
      omega
    | some n =>
      simp only [readBody, chunkMax, Option.getD_some]
      by_cases hl : limit ≤ read + n
      · rw [if_pos hl]
        have hn : n ≤ max n (chunkMax rest) := le_max_left _ _
        omega
      · rw [if_neg hl]
        have h1 := ih (read + n) (by omega)
        have h2 : chunkMax rest ≤ max n (chunkMax rest) := le_max_right _ _
        omega

/-- Per-request characterization of the trace of `schemeLoop`: each record
belongs to attempt `a`, its scheme is one of the probed schemes, and its
consumed-bytes field is 0 for transport errors and the bounded body read
for responses. -/
theorem schemeLoop_trace_sound (env : HttpEnv) (hc : HTTPCheckConfig) (a : Nat) :
    ∀ (schs : List String) (rec : ReqRecord), rec ∈ (schemeLoop env hc a schs).2 →
      rec.attempt = a ∧ rec.scheme ∈ schs ∧
      ((env a rec.scheme = none ∧ rec.consumed = 0) ∨
        (∃ resp, env a rec.scheme = some resp ∧
          rec.consumed = readBody (max hc.body_limit_bytes 1) 0 resp.chunks)) := by
  intro schs
  induction schs with
  | nil =>
    intro rec h
    simp [schemeLoop] at h
  | cons sch rest ih =>
    intro rec h
    simp only [schemeLoop] at h
    cases henv : env a sch with
    | none =>
      simp only [henv] at h
      rcases List.mem_cons.mp h with hr | hr
      · subst hr
        exact ⟨rfl, List.mem_cons_self _ _, Or.inl ⟨henv, rfl⟩⟩
      · obtain ⟨h1, h2, h3⟩ := ih rec hr
        exact ⟨h1, List.mem_cons_of_mem _ h2, h3⟩
    | some resp =>
      simp only [henv] at h
      by_cases hacc : hc.accept_status_min ≤ (resp.status : Int) ∧
          (resp.status : Int) ≤ hc.accept_status_max
      · rw [if_pos hacc] at h
        rcases List.mem_cons.mp h with hr | hr
        · subst hr
          exact ⟨rfl, List.mem_cons_self _ _, Or.inr ⟨resp, henv, rfl⟩⟩
        · simp at hr
      · rw [if_neg hacc] at h
        rcases List.mem_cons.mp h with hr | hr
        · subst hr
          exact ⟨rfl, List.mem_cons_self _ _, Or.inr ⟨resp, henv, rfl⟩⟩
        · obtain ⟨h1, h2, h3⟩ := ih rec hr
          exact ⟨h1, List.mem_cons_of_mem _ h2, h3⟩

theorem attemptLoop_trace_sound (env : HttpEnv) (hc : HTTPCheckConfig) :
    ∀ (as : List Nat) (rec : ReqRecord), rec ∈ (attemptLoop env hc as).2 →
      rec.attempt ∈ as ∧ rec.scheme ∈ schemesOf hc ∧
      ((env rec.attempt rec.scheme = none ∧ rec.consumed = 0) ∨
        (∃ resp, env rec.attempt rec.scheme = some resp ∧
          rec.consumed = readBody (max hc.body_limit_bytes 1) 0 resp.chunks)) := by
  intro as
  induction as with
  | nil =>
    intro rec h
    simp [attemptLoop] at h
  | cons a rest ih =>
    intro rec h
    simp only [attemptLoop] at h
    by_cases hp : (schemeLoop env hc a (schemesOf hc)).1 = true
    · rw [if_pos hp] at h
      obtain ⟨h1, h2, h3⟩ := schemeLoop_trace_sound env hc a (schemesOf hc) rec h
      rw [← h1]
      exact ⟨List.mem_cons_self _ _, h2, h1 ▸ h3⟩
    · rw [if_neg hp] at h
      rcases List.mem_append.mp h with hr | hr
      · obtain ⟨h1, h2, h3⟩ := schemeLoop_trace_sound env hc a (schemesOf hc) rec hr
        rw [← h1]
        exact ⟨List.mem_cons_self _ _, h2, h1 ▸ h3⟩
      · obtain ⟨h1, h2, h3⟩ := ih rec hr
        exact ⟨List.mem_cons_of_mem _ h1, h2, h3⟩

end DomainSearcher

namespace DomainSearcher

/-- C5 counterexample: with `body_limit_bytes = 1` and one accepted
response whose body arrives as a single 5-byte chunk, `check_domain`
consumes 5 bytes of body — more than `body_limit_bytes` — because the
read loop stops only at a chunk boundary (src/src/service.rs:238-247). -/
theorem body_read_exceeds_limit :
    check_domain
        (fun a s => if a = 0 ∧ s = "https" then some ⟨200, [some 5]⟩ else none)
        ⟨0, 200, 299, true, 1⟩ =
      (true, [⟨0, "https", 5⟩]) ∧ ¬ (5 ≤ 1) :=
  ⟨by decide, by decide⟩

/-- C5 (amended): `check_domain` returns true iff some request within
`retry+1` attempts, with the two schemes tried in the order given by
`try_https_first`, yields a response whose status lies in the inclusive
accept range; requests are issued in plan order and stop at the first
acceptance; transport errors and out-of-range statuses never propagate as
errors but move on to the next scheme/attempt, and exhaustion returns
false.  The body of each received response is read up to the first chunk
boundary at or past `body_limit_bytes`: at most `max body_limit_bytes 1 -
1` bytes plus one final chunk. -/
theorem check_domain_accepts_iff (env : HttpEnv) (hc : HTTPCheckConfig) :
    ((check_domain env hc).1 = true ↔
      ∃ a, a < hc.retry + 1 ∧ ∃ sch ∈ schemesOf hc, acceptsResp hc (env a sch)) ∧
    (check_domain env hc).2.map reqPos =
      (probeScan (fun r => decide (acceptsResp hc (env r.1 r.2)))
        (orderedRequests hc)).2 ∧
    (∀ rec ∈ (check_domain env hc).2, ∀ resp,
      env rec.attempt rec.scheme = some resp →
      rec.consumed ≤ max hc.body_limit_bytes 1 - 1 + chunkMax resp.chunks) := by
  have hb := attemptLoop_eq_probeScan env hc (List.range (hc.retry + 1))
  refine ⟨?_, ?_, ?_⟩
  · unfold check_domain
    rw [hb.1, probeScan_true_iff]
    constructor
    · intro h
      obtain ⟨r, hrmem, hr⟩ := h
      obtain ⟨a, ha, hsr⟩ := List.mem_flatMap.mp hrmem
      obtain ⟨sch, hsch, heq⟩ := List.mem_map.mp hsr
      refine ⟨a, List.mem_range.mp ha, sch, hsch, ?_⟩
      rw [← heq] at hr
      exact of_decide_eq_true hr
    · intro h
      obtain ⟨a, ha, sch, hsch, hacc⟩ := h
      exact ⟨(a, sch),
        List.mem_flatMap.mpr ⟨a, List.mem_range.mpr ha,
          List.mem_map.mpr ⟨sch, hsch, rfl⟩⟩,
        decide_eq_true hacc⟩
  · unfold check_domain orderedRequests
    exact hb.2
  · intro rec hrec resp henv
    obtain ⟨_, _, hdisj⟩ :=
      attemptLoop_trace_sound env hc (List.range (hc.retry + 1)) rec hrec
    rcases hdisj with ⟨hnone, _⟩ | ⟨resp', hsome, hcons⟩
    · rw [hnone] at henv
      exact absurd henv (by simp)
    · rw [hsome] at henv
      have hrr : resp' = resp := Option.some.inj henv
      subst hrr
      rw [hcons]
      exact readBody_le (max hc.body_limit_bytes 1) resp'.chunks 0
        (Nat.lt_of_lt_of_le Nat.zero_lt_one (le_max_right _ _))

/-- Witness for `check_domain_accepts_iff`: the single accepting response
with a 5-byte chunk and limit 1. -/
theorem check_domain_accepts_iff_witness :
    (check_domain
        (fun a s => if a = 0 ∧ s = "https" then some ⟨200, [some 5]⟩ else none)
        ⟨0, 200, 299, true, 1⟩).1 = true ∧
    (5 : Nat) ≤ max 1 1 - 1 + chunkMax [some 5] :=
  ⟨(check_domain_accepts_iff
        (fun a s => if a = 0 ∧ s = "https" then some ⟨200, [some 5]⟩ else none)
        ⟨0, 200, 299, true, 1⟩).1.mpr
      ⟨0, by omega, "https", by decide, by decide⟩,
    by
      have h := (check_domain_accepts_iff
          (fun a s => if a = 0 ∧ s = "https" then some ⟨200, [some 5]⟩ else none)
          ⟨0, 200, 299, true, 1⟩).2.2
        ⟨0, "https", 5⟩ (by decide) ⟨200, [some 5]⟩ (by decide)
      simpa using h⟩

end DomainSearcher

namespace DomainSearcher

/-- Shared-memory state of one `run_service` run (src/src/service.rs:50-212):
the three progress counters, the bounded channel, the per-candidate
bookkeeping of the generator sink and the prober workers, the in-memory
`last_domain` cell, and the persisted resume value. -/
structure PState where
  enq : Int
  chk : Int
  fnd : Int
  sentUncounted : Nat
  queue : List (List Char)
  inFlight : List (List Char)
  foundPending : List (List Char)
  genPending : Option (List Char)
  generated : List (List Char)
  dispatched : List (List Char)
  dropped : List (List Char)
  last : List Char
  saverPrev : List Char
  savedLast : Option (List Char)
deriving Repr, DecidableEq

/-- Initial state of a run: counters possibly seeded from the resume file
via `set_initial` (src/src/progress.rs:46-51), the cell seeded with the
loaded `last_domain` (src/src/service.rs:127), the saver's `prev` empty
(src/src/service.rs:141). -/
def initState (l0 : List Char) (e0 c0 f0 : Int) : PState :=
  ⟨e0, c0, f0, 0, [], [], [], none, [], [], [], l0, [], none⟩

/-- Atomic interleaving steps of the pipeline.  `cap` is the channel
capacity `max(1, 2*concurrency)` (src/src/service.rs:57). -/
inductive Step (cap : Nat) : PState → PState → Prop
  /-- The generator writes the next candidate to the `last_domain` cell
  (src/src/service.rs:325 and 175) before invoking the sink. -/
  | genObserve (s : PState) (d : List Char) (h : s.genPending = none) :
      Step cap s { s with last := d, genPending := some d,
                          generated := s.generated ++ [d] }
  /-- The sink's `try_send` succeeds: the candidate enters the channel
  (src/src/service.rs:177); `inc_enqueued` runs later as its own step. -/
  | genSendOk (s : PState) (d : List Char) (h : s.genPending = some d)
      (hq : s.queue.length < cap) :
      Step cap s { s with queue := s.queue ++ [d],
                          sentUncounted := s.sentUncounted + 1, genPending := none }
  /-- The sink's `try_send` fails on a full channel: the candidate is
  dropped silently and the sink still returns `true`
  (src/src/service.rs:188). -/
  | genSendFull (s : PState) (d : List Char) (h : s.genPending = some d)
      (hq : cap ≤ s.queue.length) :
      Step cap s { s with dropped := s.dropped ++ [d], genPending := none }
  /-- `prog.inc_enqueued()` after a successful `try_send`
  (src/src/service.rs:181). -/
  | genCountEnq (s : PState) (h : 0 < s.sentUncounted) :
      Step cap s { s with enq := s.enq + 1,
                          sentUncounted := s.sentUncounted - 1 }
  /-- The dispatcher receives a candidate and hands it to a worker
  (src/src/service.rs:89). -/
  | workerRecv (s : PState) (d : List Char) (q' : List (List Char))
      (h : s.queue = d :: q') :
      Step cap s { s with queue := q', inFlight := s.inFlight ++ [d],
                          dispatched := s.dispatched ++ [d] }
  /-- A probe succeeded: `store.add` then `prog.inc_found()`
  (src/src/service.rs:100-103); `inc_checked` follows separately. -/
  | probeFound (s : PState) (d : List Char) (h : d ∈ s.inFlight) :
      Step cap s { s with inFlight := s.inFlight.erase d, fnd := s.fnd + 1,
                          foundPending := s.foundPending ++ [d] }
  /-- `prog.inc_checked()` of a successful probe (src/src/service.rs:105). -/
  | probeFoundChecked (s : PState) (d : List Char) (fp' : List (List Char))
      (h : s.foundPending = d :: fp') :
      Step cap s { s with foundPending := fp', chk := s.chk + 1 }
  /-- A probe failed or errored: only `prog.inc_checked()`
  (src/src/service.rs:105). -/
  | probeFail (s : PState) (d : List Char) (h : d ∈ s.inFlight) :
      Step cap s { s with inFlight := s.inFlight.erase d, chk := s.chk + 1 }
  /-- One periodic saver tick with the cell non-empty and changed
  (src/src/service.rs:143-151): `save_resume` persists the trimmed cell
  unless the trimmed value is empty (src/src/service.rs:369-372), and
  `prev` is updated either way. -/
  | saverTick (s : PState) (h1 : s.last ≠ []) (h2 : s.last ≠ s.saverPrev) :
      Step cap s { s with
        savedLast := if trimStr s.last = [] then s.savedLast
                     else some (trimStr s.last),
        saverPrev := s.last }
  /-- The final save at shutdown (src/src/service.rs:206-209), a no-op when
  the trimmed cell is empty. -/
  | finalSave (s : PState) :
      Step cap s { s with
        savedLast := if trimStr s.last = [] then s.savedLast
                     else some (trimStr s.last) }

/-- States reachable from a given initial state. -/
inductive Reachable (cap : Nat) (s0 : PState) : PState → Prop
  | refl : Reachable cap s0 s0
  | tail {s s' : PState} : Reachable cap s0 s → Step cap s s' → Reachable cap s0 s'

end DomainSearcher

namespace DomainSearcher

/-- C3 counterexample: one reachable generator step puts "aa.io" into the
`last_domain` cell while the prober has observed nothing — the cell holds a
merely generated candidate, and it is not empty either. -/
theorem last_domain_holds_unprobed_candidate :
    Reachable 1 (initState [] 0 0 0)
        { enq := 0, chk := 0, fnd := 0, sentUncounted := 0, queue := [],
          inFlight := [], foundPending := [], genPending := some "aa.io".data,
          generated := ["aa.io".data], dispatched := [], dropped := [],
          last := "aa.io".data, saverPrev := [], savedLast := none } ∧
      "aa.io".data ∉ ([] : List (List Char)) ∧ "aa.io".data ≠ ([] : List Char) :=
  ⟨Reachable.tail Reachable.refl (Step.genObserve _ "aa.io".data rfl),
    by decide, by decide⟩

theorem last_domain_inv_step (cap : Nat) (l0 : List Char) (s s' : PState)
    (hstep : Step cap s s')
    (ih : s.last = s.generated.getLast?.getD l0 ∧
      (∀ v, s.savedLast = some v →
        v ≠ [] ∧ ∃ g, (g = l0 ∨ g ∈ s.generated) ∧ v = trimStr g)) :
    s'.last = s'.generated.getLast?.getD l0 ∧
      (∀ v, s'.savedLast = some v →
        v ≠ [] ∧ ∃ g, (g = l0 ∨ g ∈ s'.generated) ∧ v = trimStr g) := by
  cases hstep with
  | genObserve d h =>
    refine ⟨by simp [List.getLast?_concat], ?_⟩
    intro v hv
    obtain ⟨hne, g, hg, hvg⟩ := ih.2 v hv
    refine ⟨hne, g, ?_, hvg⟩
    rcases hg with hg | hg
    · exact Or.inl hg
    · exact Or.inr (List.mem_append_left _ hg)
  | genSendOk d h hq => exact ih
  | genSendFull d h hq => exact ih
  | genCountEnq h => exact ih
  | workerRecv d q' h => exact ih
  | probeFound d h => exact ih
  | probeFoundChecked d fp' h => exact ih
  | probeFail d h => exact ih
  | saverTick h1 h2 =>
    refine ⟨ih.1, ?_⟩
    intro v hv
    simp only at hv
    by_cases htr : trimStr s.last = []
    · rw [if_pos htr] at hv
      exact ih.2 v hv
    · rw [if_neg htr] at hv
      obtain rfl := Option.some.inj hv
      refine ⟨htr, s.last, ?_, rfl⟩
      rw [ih.1]
      cases hgen : s.generated.getLast? with
      | none =>
        left
        simp
      | some g =>
        right
        simpa using List.mem_of_mem_getLast? hgen
  | finalSave =>
    refine ⟨ih.1, ?_⟩
    intro v hv
    simp only at hv
    by_cases htr : trimStr s.last = []
    · rw [if_pos htr] at hv
      exact ih.2 v hv
    · rw [if_neg htr] at hv
      obtain rfl := Option.some.inj hv
      refine ⟨htr, s.last, ?_, rfl⟩
      rw [ih.1]
      cases hgen : s.generated.getLast? with
      | none =>
        left
        simp
      | some g =>
        right
        simpa using List.mem_of_mem_getLast? hgen

/-- C3 (amended): only the generator writes the `last_domain` cell: in every
reachable state it holds the most recently generated candidate (the value
handed to the sink), or the value loaded at startup when nothing has been
generated yet; the prober never updates it, and every value the saver
persists is the non-empty trim of the startup value or of some generated
candidate. -/
theorem last_domain_tracks_generated (cap : Nat) (l0 : List Char)
    (e0 c0 f0 : Int) (s : PState)
    (h : Reachable cap (initState l0 e0 c0 f0) s) :
    s.last = s.generated.getLast?.getD l0 ∧
      (∀ v, s.savedLast = some v →
        v ≠ [] ∧ ∃ g, (g = l0 ∨ g ∈ s.generated) ∧ v = trimStr g) := by
  induction h with
  | refl => simp [initState]
  | tail hreach hstep ih => exact last_domain_inv_step _ l0 _ _ hstep ih

/-- Witness for `last_domain_tracks_generated`: the single-observe trace. -/
theorem last_domain_tracks_generated_witness :
    ({ enq := 0, chk := 0, fnd := 0, sentUncounted := 0, queue := [],
       inFlight := [], foundPending := [], genPending := some "aa.io".data,
       generated := ["aa.io".data], dispatched := [], dropped := [],
       last := "aa.io".data, saverPrev := [], savedLast := none } : PState).last =
      (["aa.io".data] : List (List Char)).getLast?.getD [] :=
  (last_domain_tracks_generated 1 [] 0 0 0 _
    (Reachable.tail Reachable.refl (Step.genObserve _ "aa.io".data rfl))).1

end DomainSearcher

namespace DomainSearcher

theorem counters_inv_step (cap : Nat) (s s' : PState) (hstep : Step cap s s')
    (ih : s.fnd ≤ s.chk + (s.foundPending.length : Int) ∧
      s.chk + (s.queue.length : Int) + (s.inFlight.length : Int) +
          (s.foundPending.length : Int) ≤ s.enq + (s.sentUncounted : Int)) :
    s'.fnd ≤ s'.chk + (s'.foundPending.length : Int) ∧
      s'.chk + (s'.queue.length : Int) + (s'.inFlight.length : Int) +
          (s'.foundPending.length : Int) ≤ s'.enq + (s'.sentUncounted : Int) := by
  cases hstep with
  | genObserve d h =>
    simpa using ih
  | genSendOk d h hq =>
    simp only [List.length_append, List.length_cons, List.length_nil]
    constructor
    · exact ih.1
    · push_cast
      have := ih.2
      omega
  | genSendFull d h hq =>
    simpa using ih
  | genCountEnq h =>
    constructor
    · exact ih.1
    · have h2 := ih.2
      have hs : (1 : Int) ≤ (s.sentUncounted : Int) := by exact_mod_cast h
      push_cast
      omega
  | workerRecv d q' h =>
    constructor
    · exact ih.1
    · have h2 := ih.2
      rw [h] at h2
      simp only [List.length_append, List.length_cons, List.length_nil] at h2 ⊢
      push_cast at h2 ⊢
      omega
  | probeFound d h =>
    have hl : (s.inFlight.erase d).length = s.inFlight.length - 1 :=
      List.length_erase_of_mem h
    have hpos : 0 < s.inFlight.length := List.length_pos.mpr (List.ne_nil_of_mem h)
    constructor
    · have h1 := ih.1
      simp only [List.length_append, List.length_cons, List.length_nil]
      push_cast
      omega
    · have h2 := ih.2
      simp only [hl, List.length_append, List.length_cons, List.length_nil]
      have hcast : ((s.inFlight.length - 1 : Nat) : Int) =
          (s.inFlight.length : Int) - 1 := by
        omega
      push_cast
      omega
  | probeFoundChecked d fp' h =>
    have hlen : s.foundPending.length = fp'.length + 1 := by
      rw [h]
      simp
    constructor
    · have h1 := ih.1
      rw [hlen] at h1
      push_cast at h1 ⊢
      omega
    · have h2 := ih.2
      rw [hlen] at h2
      push_cast at h2 ⊢
      omega
  | probeFail d h =>
    have hl : (s.inFlight.erase d).length = s.inFlight.length - 1 :=
      List.length_erase_of_mem h
    have hpos : 0 < s.inFlight.length := List.length_pos.mpr (List.ne_nil_of_mem h)
    dsimp only
    rw [hl]
    constructor
    · have h1 := ih.1
      omega
    · have h2 := ih.2
      have hcast : ((s.inFlight.length - 1 : Nat) : Int) =
          (s.inFlight.length : Int) - 1 := by
        omega
      omega
  | saverTick h1 h2 =>
    simpa using ih
  | finalSave =>
    simpa using ih

theorem counters_inv_reachable (cap : Nat) (l0 : List Char) (e0 c0 f0 : Int)
    (hec : c0 ≤ e0) (hcf : f0 ≤ c0) (s : PState)
    (h : Reachable cap (initState l0 e0 c0 f0) s) :
    s.fnd ≤ s.chk + (s.foundPending.length : Int) ∧
      s.chk + (s.queue.length : Int) + (s.inFlight.length : Int) +
          (s.foundPending.length : Int) ≤ s.enq + (s.sentUncounted : Int) := by
  induction h with
  | refl =>
    simp only [initState, List.length_nil]
    push_cast
    omega
  | tail hreach hstep ih => exact counters_inv_step _ _ _ hstep ih

end DomainSearcher

namespace DomainSearcher

/-- C4 counterexample: a reachable interleaving in which a successful probe
has run `inc_found` (src/src/service.rs:102) while neither its
`inc_checked` (line 105) nor the generator's `inc_enqueued` (line 181,
which runs only after `try_send`) has executed yet: the counters read
`enqueued = 0, checked = 0, found = 1`, violating
`enqueued ≥ checked ≥ found`. -/
theorem counters_transiently_unordered :
    Reachable 1 (initState [] 0 0 0)
        { enq := 0, chk := 0, fnd := 0 + 1, sentUncounted := 0 + 1, queue := [],
          inFlight := (["a".data] : List (List Char)).erase "a".data,
          foundPending := ["a".data], genPending := none,
          generated := ["a".data], dispatched := ["a".data], dropped := [],
          last := "a".data, saverPrev := [], savedLast := none } ∧
      ¬ ((0 : Int) ≥ 0 + 1) :=
  ⟨Reachable.tail
      (Reachable.tail
        (Reachable.tail
          (Reachable.tail Reachable.refl (Step.genObserve _ "a".data rfl))
          (Step.genSendOk _ "a".data rfl (by decide)))
        (Step.workerRecv _ "a".data [] rfl))
      (Step.probeFound _ "a".data (by decide)),
    by omega⟩

/-- C4 (amended): each of the counters `enqueued`, `checked`, `found` never
decreases across any step; the inequality `enqueued ≥ checked ≥ found`
holds in every reachable quiescent state — one with no send counted late
(`inc_enqueued` pending), an empty queue, no probe in flight and no
`inc_checked` pending — given counters seeded with
`enqueued ≥ checked ≥ found`.  Between those points the inequalities can be
transiently violated, because `inc_found` precedes `inc_checked` and
`inc_enqueued` follows `try_send`. -/
theorem counters_monotone_and_quiescently_ordered (cap : Nat) (l0 : List Char)
    (e0 c0 f0 : Int) (hec : c0 ≤ e0) (hcf : f0 ≤ c0) :
    (∀ s s' : PState, Step cap s s' →
      s.enq ≤ s'.enq ∧ s.chk ≤ s'.chk ∧ s.fnd ≤ s'.fnd) ∧
    (∀ s : PState, Reachable cap (initState l0 e0 c0 f0) s →
      s.sentUncounted = 0 → s.queue = [] → s.inFlight = [] →
      s.foundPending = [] → s.chk ≤ s.enq ∧ s.fnd ≤ s.chk) := by
  constructor
  · intro s s' hstep
    cases hstep with
    | genObserve d h => dsimp only; omega
    | genSendOk d h hq => dsimp only; omega
    | genSendFull d h hq => dsimp only; omega
    | genCountEnq h => dsimp only; omega
    | workerRecv d q' h => dsimp only; omega
    | probeFound d h => dsimp only; omega
    | probeFoundChecked d fp' h => dsimp only; omega
    | probeFail d h => dsimp only; omega
    | saverTick h1 h2 => dsimp only; omega
    | finalSave => dsimp only; omega
  · intro s hs hsu hq hif hfp
    have hinv := counters_inv_reachable cap l0 e0 c0 f0 hec hcf s hs
    rw [hsu, hq, hif, hfp] at hinv
    simp only [List.length_nil] at hinv
    push_cast at hinv
    omega

/-- Witness for `counters_monotone_and_quiescently_ordered`: the seeded
initial state itself is quiescent. -/
theorem counters_monotone_witness :
    (initState [] 5 3 2).chk ≤ (initState [] 5 3 2).enq ∧
      (initState [] 5 3 2).fnd ≤ (initState [] 5 3 2).chk :=
  (counters_monotone_and_quiescently_ordered 1 [] 5 3 2 (by omega) (by omega)).2
    (initState [] 5 3 2) Reachable.refl rfl rfl rfl rfl

end DomainSearcher

namespace DomainSearcher

theorem genPending_cell_step (cap : Nat) (s s' : PState) (hstep : Step cap s s')
    (ih : ∀ d, s.genPending = some d → s.last = d) :
    ∀ d, s'.genPending = some d → s'.last = d := by
  cases hstep with
  | genObserve d h =>
    intro d' hd'
    simp only at hd'
    obtain rfl := Option.some.inj hd'
    rfl
  | genSendOk d h hq =>
    intro d' hd'
    simp only at hd'
    exact absurd hd' (by simp)
  | genSendFull d h hq =>
    intro d' hd'
    simp only at hd'
    exact absurd hd' (by simp)
  | genCountEnq h => exact ih
  | workerRecv d q' h => exact ih
  | probeFound d h => exact ih
  | probeFoundChecked d fp' h => exact ih
  | probeFail d h => exact ih
  | saverTick h1 h2 => exact ih
  | finalSave => exact ih

/-- C10 counterexample: with `tlds = [".z", ".a", ".ab"]` and alphabet "ab"
at length 1, the candidate "b.a" precedes the final candidate "b.ab" in
enumeration order and sorts lexicographically below it; if "b.a" is
dropped by a full queue while the pass finishes with the cell (and hence
the persisted cursor) at "b.ab", the next resumed run nevertheless
re-emits "b.a" — the dropped candidate is not skipped permanently and can
be probed in a later run. -/
theorem dropped_candidate_can_be_reprobed :
    "b.a".data ∈ generate_candidates
        ⟨[".z".data, ".a".data, ".ab".data], 1, 1, "ab".data,
          false, false, false, false⟩ [] ∧
    (generate_candidates
        ⟨[".z".data, ".a".data, ".ab".data], 1, 1, "ab".data,
          false, false, false, false⟩ []).getLast? = some "b.ab".data ∧
    strLe (lowerStr "b.a".data) (lowerStr "b.ab".data) = true ∧
    "b.a".data ∈ generate_candidates
        ⟨[".z".data, ".a".data, ".ab".data], 1, 1, "ab".data,
          false, false, false, false⟩ "b.ab".data :=
  ⟨by decide, by decide, by decide, by decide⟩

/-- C10 (amended): the cell is advanced to the candidate before the sink
runs (whenever a send is pending for `d`, the cell already holds `d`); a
full-queue `try_send` drops the candidate without enqueuing or probing it,
leaves every counter unchanged, and the sink still returns `true` so
generation can continue with the next candidate.  A dropped candidate is
not thereby sorted `≤` every later cursor, and a subsequent resumed run
emits only candidates of the fresh enumeration — possibly including the
dropped one, which can then be probed. -/
theorem drop_semantics (cap : Nat) (l0 : List Char) (e0 c0 f0 : Int) :
    (∀ s : PState, Reachable cap (initState l0 e0 c0 f0) s →
      ∀ d, s.genPending = some d → s.last = d) ∧
    (∀ (s : PState) (d : List Char), s.genPending = some d →
      cap ≤ s.queue.length →
      Step cap s { s with dropped := s.dropped ++ [d], genPending := none }) ∧
    (∀ (s : PState) (d d' : List Char), s.genPending = some d →
      cap ≤ s.queue.length →
      Step cap { s with dropped := s.dropped ++ [d], genPending := none }
        { s with dropped := s.dropped ++ [d], genPending := some d',
                 last := d', generated := s.generated ++ [d'] }) ∧
    (∀ (gen : GeneratorConfig) (r d : List Char),
      d ∈ generate_candidates gen r → d ∈ generate_candidates gen []) := by
  refine ⟨?_, ?_, ?_, ?_⟩
  · intro s hs
    induction hs with
    | refl => intro d hd; simp [initState] at hd
    | tail hreach hstep ih => exact genPending_cell_step _ _ _ hstep ih
  · intro s d h hq
    exact Step.genSendFull s d h hq
  · intro s d d' h hq
    exact Step.genObserve _ d' rfl
  · intro gen r d h
    by_cases hr : r = []
    · subst hr
      exact h
    · rw [generate_candidates_resume gen r hr] at h
      rw [generate_candidates_nil]
      exact mem_of_mem_resumeSuffix _ _ _ h

/-- Witness for `drop_semantics`: a concrete full-queue drop step with
capacity 1. -/
theorem drop_semantics_witness :
    Step 1
      { enq := 0, chk := 0, fnd := 0, sentUncounted := 0, queue := ["q".data],
        inFlight := [], foundPending := [], genPending := some "b.a".data,
        generated := ["b.a".data], dispatched := [], dropped := [],
        last := "b.a".data, saverPrev := [], savedLast := none }
      { enq := 0, chk := 0, fnd := 0, sentUncounted := 0, queue := ["q".data],
        inFlight := [], foundPending := [], genPending := none,
        generated := ["b.a".data], dispatched := [], dropped := ["b.a".data],
        last := "b.a".data, saverPrev := [], savedLast := none } :=
  (drop_semantics 1 [] 0 0 0).2.1 _ "b.a".data rfl (by decide)

end DomainSearcher

namespace DomainSearcher

/-- A storage-directory snapshot: file names with contents, in directory
enumeration order. -/
def FsDir : Type := List (List Char × List Char)

/-- File lookup in a directory snapshot. -/
def lookupFile : FsDir → List Char → Option (List Char)
  | [], _ => none
  | (n, c) :: rest, name => if n = name then some c else lookupFile rest name

/-- Strip one trailing carriage return, as `BufRead::lines` does. -/
def stripCR (l : List Char) : List Char :=
  if l.getLast? = some '\r' then l.dropLast else l

/-- Accumulating splitter for Rust `BufRead::lines`: `cur` holds the
current line reversed. -/
def rustLinesGo (cur : List Char) : List Char → List (List Char)
  | [] => if cur = [] then [] else [stripCR cur.reverse]
  | c :: rest =>
    if c = '\n' then stripCR cur.reverse :: rustLinesGo [] rest
    else rustLinesGo (c :: cur) rest

/-- Rust `BufRead::lines` semantics: split on newlines, strip one trailing
carriage return per line, and yield a final segment only when non-empty. -/
def rustLines (content : List Char) : List (List Char) := rustLinesGo [] content

/-- Embedding of `DomainStore::list` (src/src/store.rs:115-130) over a
directory snapshot: normalize the TLD, look up `<t>.txt`, and return all
the file's lines as `BufRead::lines` yields them (missing file: empty). -/
def DomainStore_list (fs : FsDir) (tld : List Char) : List (List Char) :=
  let t := lowerStr (trimStr tld)
  if t = [] then []
  else
    match lookupFile fs (t ++ ".txt".data) with
    | none => []
    | some content => rustLines content

/-- File-name test of `DomainStore::list_all` (src/src/store.rs:137):
`path.extension() == Some("txt")`, i.e. the name ends in ".txt" with a
non-empty stem. -/
def hasTxtExt (name : List Char) : Bool :=
  decide (4 < name.length) && decide (name.drop (name.length - 4) = ".txt".data)

/-- Line-pushing loop of `list_all` with its 100000-entry safety cap
(src/src/store.rs:141-146); the flag reports that the cap was hit and the
whole listing stops. -/
def pushCapped (out : List (List Char)) : List (List Char) → List (List Char) × Bool
  | [] => (out, false)
  | l :: ls =>
    let out' := out ++ [l]
    if 100000 ≤ out'.length then (out', true) else pushCapped out' ls

/-- Directory loop of `DomainStore::list_all` (src/src/store.rs:132-152). -/
def list_allGo : FsDir → List (List Char) → List (List Char)
  | [], out => out
  | (name, content) :: rest, out =>
    if hasTxtExt name then
      let p := pushCapped out (rustLines content)
      if p.2 then p.1 else list_allGo rest p.1
    else list_allGo rest out

/-- Embedding of `DomainStore::list_all`. -/
def DomainStore_list_all (fs : FsDir) : List (List Char) := list_allGo fs []

/-- Specification-side reading of C6 for `list`: the file's non-empty
trimmed lines. -/
def nonEmptyTrimmedLines (content : List Char) : List (List Char) :=
  ((rustLines content).map trimStr).filter (fun l => ¬ l = [])

/-- Newline-terminated concatenation, the shape `flush_buffer` appends for
each stored domain (src/src/store.rs:90-94). -/
def joinNL (ds : List (List Char)) : List Char := ds.flatMap (· ++ ['\n'])

/-- C6 counterexample: a file containing an empty line — `list` returns the
raw lines `["a.io", "", "b.io"]`, not the non-empty trimmed lines. -/
theorem list_returns_raw_lines :
    DomainStore_list [("io.txt".data, "a.io\n\nb.io\n".data)] "io".data =
      ["a.io".data, [], "b.io".data] ∧
    nonEmptyTrimmedLines "a.io\n\nb.io\n".data = ["a.io".data, "b.io".data] ∧
    DomainStore_list [("io.txt".data, "a.io\n\nb.io\n".data)] "io".data ≠
      nonEmptyTrimmedLines "a.io\n\nb.io\n".data :=
  ⟨by decide, by decide, by decide⟩

end DomainSearcher

namespace DomainSearcher

theorem stripCR_eq (d : List Char) (h : '\r' ∉ d) : stripCR d = d := by
  unfold stripCR
  by_cases hg : d.getLast? = some '\r'
  · exact absurd (List.mem_of_mem_getLast? hg) h
  · rw [if_neg hg]

theorem rustLinesGo_line (d : List Char) (h : '\n' ∉ d) :
    ∀ (cur t : List Char),
      rustLinesGo cur (d ++ '\n' :: t) =
        stripCR (cur.reverse ++ d) :: rustLinesGo [] t := by
  induction d with
  | nil =>
    intro cur t
    simp [rustLinesGo]
  | cons c d' ih =>
    intro cur t
    have hc : ¬ c = '\n' := fun hc => h (hc ▸ List.mem_cons_self _ _)
    have h' : '\n' ∉ d' := fun hm => h (List.mem_cons_of_mem _ hm)
    simp only [List.cons_append, rustLinesGo, hc, if_false]
    rw [List.append_eq, ih h' (c :: cur) t]
    congr 2
    simp

theorem rustLines_joinNL (ds : List (List Char))
    (h : ∀ d ∈ ds, '\n' ∉ d ∧ '\r' ∉ d) :
    rustLines (joinNL ds) = ds := by
  induction ds with
  | nil => rfl
  | cons d ds ih =>
    have hd := h d (List.mem_cons_self _ _)
    have hds : ∀ x ∈ ds, '\n' ∉ x ∧ '\r' ∉ x :=
      fun x hx => h x (List.mem_cons_of_mem _ hx)
    have hjoin : joinNL (d :: ds) = d ++ '\n' :: joinNL ds := by
      simp [joinNL]
    rw [rustLines, hjoin, rustLinesGo_line d hd.1 [] (joinNL ds)]
    rw [List.reverse_nil, List.nil_append, stripCR_eq d hd.2]
    rw [← rustLines, ih hds]

theorem pushCapped_small : ∀ (ls out : List (List Char)),
    out.length + ls.length < 100000 → pushCapped out ls = (out ++ ls, false) := by
  intro ls
  induction ls with
  | nil =>
    intro out h
    simp [pushCapped]
  | cons l ls ih =>
    intro out h
    simp only [List.length_cons] at h
    simp only [pushCapped]
    rw [if_neg (by simp; omega)]
    rw [ih (out ++ [l]) (by simp; omega)]
    simp

/-- All lines of the `.txt` files of a directory, in directory order. -/
def txtLines (fs : FsDir) : List (List Char) :=
  (fs.filter fun e => hasTxtExt e.1).flatMap fun e => rustLines e.2

theorem list_allGo_small : ∀ (fs : FsDir) (out : List (List Char)),
    out.length + (txtLines fs).length < 100000 →
    list_allGo fs out = out ++ txtLines fs := by
  intro fs
  induction fs with
  | nil =>
    intro out h
    simp [list_allGo, txtLines]
  | cons e rest ih =>
    intro out h
    obtain ⟨name, content⟩ := e
    by_cases hx : hasTxtExt name
    · have htxt : txtLines ((name, content) :: rest) =
          rustLines content ++ txtLines rest := by
        simp [txtLines, List.filter_cons, hx]
      rw [htxt] at h
      simp only [List.length_append] at h
      simp only [list_allGo, hx, if_true]
      rw [pushCapped_small (rustLines content) out (by omega)]
      simp only [Bool.false_eq_true, if_false]
      rw [ih (out ++ rustLines content) (by simp; omega)]
      rw [htxt, List.append_assoc]
    · have htxt : txtLines ((name, content) :: rest) = txtLines rest := by
        simp [txtLines, List.filter_cons, hx]
      rw [htxt] at h
      rw [show list_allGo ((name, content) :: rest) out = list_allGo rest out from by
        simp [list_allGo, hx]]
      rw [ih out h, htxt]

/-- C6 (amended): `list` returns every line of the file verbatim (no
trimming, empty lines included; missing file gives the empty list); on a
file consisting of newline-terminated, non-empty, trimmed domains — the
shape the store writes — this coincides with the non-empty trimmed lines
in append order.  `list_all` concatenates the lines of every `.txt` file
in directory order (append order within each file), subject to a
100000-line safety cap; below the cap it is exactly that union. -/
theorem store_list_spec :
    (∀ (fs : FsDir) (tld : List Char) (ds : List (List Char)),
      (∀ d ∈ ds, d ≠ [] ∧ '\n' ∉ d ∧ '\r' ∉ d ∧ trimStr d = d) →
      lowerStr (trimStr tld) ≠ [] →
      lookupFile fs (lowerStr (trimStr tld) ++ ".txt".data) = some (joinNL ds) →
      DomainStore_list fs tld = ds ∧
        DomainStore_list fs tld = nonEmptyTrimmedLines (joinNL ds)) ∧
    (∀ (fs : FsDir) (tld : List Char),
      lookupFile fs (lowerStr (trimStr tld) ++ ".txt".data) = none →
      DomainStore_list fs tld = []) ∧
    (∀ fs : FsDir, (txtLines fs).length < 100000 →
      DomainStore_list_all fs = txtLines fs) := by
  refine ⟨?_, ?_, ?_⟩
  · intro fs tld ds hds hne hlook
    have hlines : rustLines (joinNL ds) = ds :=
      rustLines_joinNL ds (fun d hd => ⟨(hds d hd).2.1, (hds d hd).2.2.1⟩)
    have hlist : DomainStore_list fs tld = ds := by
      simp only [DomainStore_list]
      rw [if_neg hne, hlook]
      simpa using hlines
    refine ⟨hlist, ?_⟩
    rw [hlist]
    unfold nonEmptyTrimmedLines
    rw [hlines]
    have hmap : ds.map trimStr = ds :=
      List.map_congr_left (fun d hd => (hds d hd).2.2.2) |>.trans ds.map_id
    rw [hmap]
    apply Eq.symm
    apply List.filter_eq_self.mpr
    intro d hd
    simpa using (hds d hd).1
  · intro fs tld hlook
    unfold DomainStore_list
    by_cases hne : lowerStr (trimStr tld) = []
    · rw [if_pos hne]
    · rw [if_neg hne, hlook]
  · intro fs hlen
    unfold DomainStore_list_all
    rw [list_allGo_small fs [] (by simpa using hlen)]
    rfl

/-- Witness for `store_list_spec`: a two-domain io.txt file. -/
theorem store_list_spec_witness :
    DomainStore_list [("io.txt".data, joinNL ["a.io".data, "b.io".data])]
        "io".data = ["a.io".data, "b.io".data] ∧
    DomainStore_list_all [("io.txt".data, joinNL ["a.io".data, "b.io".data])] =
      txtLines [("io.txt".data, joinNL ["a.io".data, "b.io".data])] :=
  ⟨(store_list_spec.1 [("io.txt".data, joinNL ["a.io".data, "b.io".data])]
      "io".data ["a.io".data, "b.io".data] (by decide) (by decide) (by decide)).1,
    store_list_spec.2.2 [("io.txt".data, joinNL ["a.io".data, "b.io".data])]
      (by decide)⟩

end DomainSearcher

namespace DomainSearcher

/-- Persisted resume snapshot with all six fields
(src/src/service.rs:355-367). -/
structure ResumeState where
  last_domain : List Char
  updated_at_unix : Nat
  enqueued : Int
  checked : Int
  found : Int
  total_planned : Int
deriving Repr, DecidableEq

/-- Contents of a file: either a complete serialized `ResumeState`
(`serde_json::to_vec` of the whole struct) or arbitrary raw bytes, e.g. a
partially completed write. -/
inductive FileData where
  | raw (bytes : List Char)
  | snap (st : ResumeState)
deriving Repr, DecidableEq

/-- The two paths `save_resume` touches: the state file and its sibling
temp path `path.with_extension("json.tmp")` (src/src/service.rs:376),
which is always distinct from the state path because a Rust extension
never contains a dot. -/
structure FsPair where
  stateFile : Option FileData
  tmpFile : Option FileData
deriving Repr, DecidableEq

/-- Micro-step trace of `save_resume` (src/src/service.rs:369-390): a no-op
when the trimmed last domain is empty; otherwise the temp file passes
through an arbitrary intermediate content `junk` (the non-atomic
`fs::write`), then holds the complete snapshot, and finally `fs::rename`
atomically replaces the state file.  Each list element is a state in which
the file system can be observed, e.g. at a crash. -/
def save_resume (fs : FsPair) (last : List Char) (enq chk fnd tp : Int)
    (t : Nat) (junk : List Char) : List FsPair :=
  if trimStr last = [] then [fs]
  else
    [fs,
      { fs with tmpFile := some (.raw junk) },
      { fs with tmpFile := some (.snap ⟨trimStr last, t, enq, chk, fnd, tp⟩) },
      { stateFile := some (.snap ⟨trimStr last, t, enq, chk, fnd, tp⟩),
        tmpFile := none }]

/-- One periodic saver tick (src/src/service.rs:143-151): `save_resume`
runs only when the cell value is non-empty and differs from the previously
saved value; returns the observable file-system states and the saver's new
`prev`. -/
def saver_tick (fs : FsPair) (prev cur : List Char) (enq chk fnd tp : Int)
    (t : Nat) (junk : List Char) : List FsPair × List Char :=
  if cur ≠ [] ∧ cur ≠ prev then
    (save_resume fs cur enq chk fnd tp t junk, cur)
  else ([fs], prev)

/-- C9: every save writes the complete six-field snapshot to the sibling
temp path and then atomically renames it over the state file: at every
observable point the state file holds either its previous content (or
absence) or the complete new snapshot — never a partial write — and after
a save with a non-empty trimmed domain it holds exactly the new snapshot
with the temp file gone.  The periodic saver invokes the save only when
the cell is non-empty and changed. -/
theorem resume_save_atomic (fs : FsPair) (last : List Char)
    (enq chk fnd tp : Int) (t : Nat) (junk : List Char) :
    (∀ fs' ∈ save_resume fs last enq chk fnd tp t junk,
      fs'.stateFile = fs.stateFile ∨
        fs'.stateFile = some (.snap ⟨trimStr last, t, enq, chk, fnd, tp⟩)) ∧
    (trimStr last ≠ [] →
      (save_resume fs last enq chk fnd tp t junk).getLast? =
        some { stateFile := some (.snap ⟨trimStr last, t, enq, chk, fnd, tp⟩),
               tmpFile := none }) ∧
    (∀ (prev cur : List Char), cur = [] ∨ cur = prev →
      saver_tick fs prev cur enq chk fnd tp t junk = ([fs], prev)) := by
  refine ⟨?_, ?_, ?_⟩
  · intro fs' hfs'
    unfold save_resume at hfs'
    by_cases htr : trimStr last = []
    · rw [if_pos htr] at hfs'
      simp only [List.mem_singleton] at hfs'
      subst hfs'
      exact Or.inl rfl
    · rw [if_neg htr] at hfs'
      simp only [List.mem_cons, List.not_mem_nil, or_false] at hfs'
      rcases hfs' with rfl | rfl | rfl | rfl
      · exact Or.inl rfl
      · exact Or.inl rfl
      · exact Or.inl rfl
      · exact Or.inr rfl
  · intro htr
    unfold save_resume
    rw [if_neg htr]
    rfl
  · intro prev cur hcur
    unfold saver_tick
    rw [if_neg (by
      rintro ⟨h1, h2⟩
      rcases hcur with h | h
      · exact h1 h
      · exact h2 h)]

/-- Witness for `resume_save_atomic`: a concrete save over an absent state
file. -/
theorem resume_save_atomic_witness :
    (save_resume ⟨none, none⟩ "a.io".data 1 1 0 0 7 "junk".data).getLast? =
      some { stateFile := some (.snap ⟨trimStr "a.io".data, 7, 1, 1, 0, 0⟩),
             tmpFile := none } :=
  (resume_save_atomic ⟨none, none⟩ "a.io".data 1 1 0 0 7 "junk".data).2.1
    (by decide)

end DomainSearcher
